import Mathlib

/-!
# kungfu: the patch engine, embedded in Lean

A shallow embedding of `internal/models`, `internal/patcher`, `internal/parser`
and the runner of `cmd/build.go`, followed by theorems about them.

Modelling decisions, each forced by a Go construct that has no direct Lean
counterpart:

* `cty.Value` is the inductive `Value`: the known values of the primitive and
  collection types, the dynamic null, and the null of every other type (`nullOf`),
  which `Expression.Value(nil)` returns for `false ? {a = 1} : null`.  A library
  method that panics on a value returns `none` on it.  Unknown and marked values,
  which need an evaluation context, and capsules are outside the model.
* A Go `map[string]T` is an association list `List (String × T)`.  Writing a key
  that is present replaces its value in place, writing an absent key appends it,
  so a list built through `GoMap.store` never repeats a key.  The list order
  stands for the (unspecified) iteration order of the Go map.
* `interface{}` is the sum type `Dyn`, with one constructor per dynamic type that
  the code distinguishes in a type switch or a type assertion.
* A `*hclwrite.Block` held by an index entry is the position of that block among
  the top-level blocks of the file that owns it.  In-place mutation through the
  pointer becomes explicit state passing: the functions return the file set
  after the mutation together with the Go `error` (`none` for `nil`).
* Reading and writing files is outside the model: the parsers start from the
  parsed tree, and the runner reaches the file system through a parameter
  `ModuleStore`.  A run-time panic is a result of its own (`Failure.panic`),
  apart from a returned `error`.
* The HCL library is not re-implemented.  Token sequences are a free datatype
  (`Tokens`), and the two library calls whose result the code inspects,
  `hclsyntax.ParseExpression` and `Expression.Value(nil)`, are the fields of a
  parameter `Hcl`; every theorem holds for every such library.
-/

namespace Kungfu

/-! ## Values (`cty.Value`) -/

/-- A `cty.Type`. -/
inductive Ty where
  | dynamic
  | bool
  | number
  | string
  | list (elem : Ty)
  | set (elem : Ty)
  | map (elem : Ty)
  | tuple (elems : List Ty)
  | object (attrs : List (String × Ty))

/-- A `cty.Value`: a known value, the dynamic null (`null`), or the null of
another type (`nullOf`).  Numbers are arbitrary precision in cty; a rational
payload covers every integer and every finite float the code can build. -/
inductive Value where
  | null
  | bool (b : Bool)
  | number (n : Rat)
  | string (s : String)
  | list (elems : List Value)
  | set (elems : List Value)
  | tuple (elems : List Value)
  | map (elems : List (String × Value))
  | object (attrs : List (String × Value))
  | nullOf (ty : Ty)

/-- The test `v.Type().IsObjectType()`: it looks at the type only, so it holds
for a null of an object type too. -/
def Value.isObjectType : Value → Bool
  | .object _ => true
  | .nullOf (.object _) => true
  | _ => false

/-- The test `v.Type().IsTupleType()`. -/
def Value.isTupleType : Value → Bool
  | .tuple _ => true
  | .nullOf (.tuple _) => true
  | _ => false

/-- The test `v.Type().IsListType()`. -/
def Value.isListType : Value → Bool
  | .list _ => true
  | .nullOf (.list _) => true
  | _ => false

/-- The method `AsValueSlice` on a value of list, set or tuple type: its
elements, or `none` when the method panics.  On a null tuple the length comes
from the type, so only the empty tuple type gets past the length check; a null
list or set panics in `LengthInt`.  Values of other types, which this code never
passes, are answered with `none`. -/
def Value.AsValueSlice : Value → Option (List Value)
  | .list elems => some elems
  | .set elems => some elems
  | .tuple elems => some elems
  | .nullOf (.tuple []) => some []
  | _ => none

/-- The method `AsValueMap` on a value of object or map type: its entries, or
`none` when the method panics.  On a null object the length comes from the
type, so only the empty object type gets past the length check; with an
attribute the element iterator panics on the null.  Values of other types,
which this code never passes, are answered with `none`. -/
def Value.AsValueMap : Value → Option (List (String × Value))
  | .map elems => some elems
  | .object attrs => some attrs
  | .nullOf (.object []) => some []
  | _ => none

/-! ## Go maps as association lists -/

namespace GoMap

/-- The lookup `v, exists := m[key]`. -/
def get {β : Type} : List (String × β) → String → Option β
  | [], _ => none
  | (k, v) :: rest, key => if k = key then some v else get rest key

/-- The assignment `m[key] = val`. -/
def store {β : Type} : List (String × β) → String → β → List (String × β)
  | [], key, val => [(key, val)]
  | (k, v) :: rest, key, val =>
    if k = key then (key, val) :: rest else (k, v) :: store rest key val

/-- Removal of the entry stored under `key`, if there is one. -/
def delete {β : Type} : List (String × β) → String → List (String × β)
  | [], _ => []
  | (k, v) :: rest, key => if k = key then rest else (k, v) :: delete rest key

/-- The keys of the map, in iteration order. -/
def keys {β : Type} (m : List (String × β)) : List String :=
  m.map Prod.fst

/-- No key occurs twice: the invariant of every Go map. -/
def NodupKeys {β : Type} (m : List (String × β)) : Prop :=
  (keys m).Nodup

end GoMap

/-! ## HCL expressions and tokens -/

/-- The byte offsets of an `hcl.Range` (`Start.Byte`, `End.Byte`). -/
structure Range where
  startByte : Int
  endByte : Int
deriving DecidableEq, Repr

/-- A byte slice; every element is meant to be below 256. -/
abbrev Bytes := List Nat

/-- The method `hcl.Range.SliceBytes`: the part of `b` covered by the range,
with both offsets clamped to `b`. -/
def Range.SliceBytes (r : Range) (b : Bytes) : Bytes :=
  let len : Int := b.length
  let start : Int :=
    if r.startByte < 0 then 0 else if r.startByte > len then len else r.startByte
  let stop : Int :=
    if r.endByte < 0 then 0 else if r.endByte > len then len else r.endByte
  let stop : Int := if stop < start then start else stop
  (b.drop start.toNat).take (stop - start).toNat

/-- An `hclsyntax.Expression`.  The node kinds that the code or its tests name
are constructors of their own; `otherExpr` stands for every remaining kind
(operators, conditionals, for-expressions, parentheses, ...) and records what the
node evaluates to without an evaluation context. -/
inductive Expr where
  | literalValue (val : Value) (srcRange : Range)
  | template (parts : List Expr) (srcRange : Range)
  | tupleCons (exprs : List Expr) (srcRange : Range)
  | objectCons (items : List (Expr × Expr)) (srcRange : Range)
  | scopeTraversal (path : List String) (srcRange : Range)
  | functionCall (name : String) (args : List Expr) (srcRange : Range)
  | otherExpr (kind : String) (value : Option Value) (srcRange : Range)

/-- The method `Range()` of an expression. -/
def Expr.Range : Expr → Range
  | .literalValue _ r => r
  | .template _ r => r
  | .tupleCons _ r => r
  | .objectCons _ r => r
  | .scopeTraversal _ r => r
  | .functionCall _ _ r => r
  | .otherExpr _ _ r => r

/-- An `hclwrite.Tokens` sequence, by the way it was obtained. -/
inductive Tokens where
  | raw (src : String)
  | forValue (v : Value)
  | forIdentifier (name : Bytes)

/-- The HCL library calls whose outcome the code branches on.  Each returns
`none` exactly when the Go call reports diagnostics with errors. -/
structure Hcl where
  ParseExpression : Tokens → Option Expr
  Value : Expr → Option Value

/-! ## Dynamic values (`interface{}`) -/

/-- A Go `interface{}` as it reaches the patcher.  `other` is a value of any
dynamic type not listed, carried with its `%v` rendering. -/
inductive Dyn where
  | nil
  | cty (v : Value)
  | expression (e : Expr)
  | string (s : String)
  | int (n : Int)
  | float (x : Rat)
  | bool (b : Bool)
  | other (rendering : String)

/-- Whether the dynamic value is a `cty.Value` of object type. -/
def Dyn.isObject : Dyn → Bool
  | .cty v => v.isObjectType
  | _ => false

/-- Whether the dynamic value is a `cty.Value` of list or tuple type. -/
def Dyn.isSequence : Dyn → Bool
  | .cty v => v.isTupleType || v.isListType
  | _ => false

/-- How a Go call can end without a result: a returned `error`, or a run-time
panic that crashes the program.  The message of a panic raised inside a library
stands for the text the library prints. -/
inductive Failure where
  | error (msg : String)
  | panic (msg : String)
deriving DecidableEq, Repr

/-! ## `internal/models` -/

/-- The Go type `MergeStrategy int`. -/
abbrev MergeStrategy := Int

/-- The constant `StrategyReplace` (`iota` = 0). -/
def StrategyReplace : MergeStrategy := 0

/-- The constant `StrategyMerge`. -/
def StrategyMerge : MergeStrategy := 1

/-- The constant `StrategyAppend`. -/
def StrategyAppend : MergeStrategy := 2

/-- The function `models.ResourceKey`. -/
def ResourceKey (resourceType resourceName : String) : String :=
  resourceType ++ "." ++ resourceName

/-! ## `internal/patcher`: the merge engine -/

mutual
/-- The body of `DeepMerge` once both type assertions to `cty.Value` have
succeeded; `none` when a call of `AsValueMap` panics.  The map of a null patch
that gets past `AsValueMap` is empty, so its loop does nothing. -/
def mergeCty : Value → Value → Option Dyn
  | existingCty, .object patchMap =>
    if !existingCty.isObjectType then some (.cty (.object patchMap))
    else
      match existingCty.AsValueMap with
      | none => none
      | some existingMap =>
        match mergeLoop existingMap patchMap with
        | none => none
        | some mergedMap => some (.cty (.object mergedMap))
  | existingCty, .nullOf ty =>
    if !existingCty.isObjectType || !(Value.nullOf ty).isObjectType then
      some (.cty (.nullOf ty))
    else
      match existingCty.AsValueMap, (Value.nullOf ty).AsValueMap with
      | some existingMap, some _ => some (.cty (.object existingMap))
      | _, _ => none
  | _, patchCty => some (.cty patchCty)
/-- The loop `for key, val := range patchCty.AsValueMap()` of `DeepMerge`,
threading `mergedMap`; `none` when a recursive call panics. -/
def mergeLoop (mergedMap : List (String × Value)) :
    List (String × Value) → Option (List (String × Value))
  | [] => some mergedMap
  | (key, val) :: rest =>
    match GoMap.get mergedMap key with
    | none => mergeLoop (GoMap.store mergedMap key val) rest
    | some existingVal =>
      if !existingVal.isObjectType || !val.isObjectType then
        mergeLoop (GoMap.store mergedMap key val) rest
      else
        match mergeCty existingVal val with
        | none => none
        | some (.cty merged) => mergeLoop (GoMap.store mergedMap key merged) rest
        | some _ => mergeLoop (GoMap.store mergedMap key val) rest
end

/-- The function `DeepMerge`; `none` when it panics. -/
def DeepMerge (existing patch : Dyn) : Option Dyn :=
  match existing, patch with
  | .cty existingCty, .cty patchCty => mergeCty existingCty patchCty
  | _, _ => some patch

/-- The value that one iteration of the loop of `DeepMerge` stores under a key
of the patch, given what `mergedMap` holds under that key; `none` when the
iteration panics. -/
def mergedEntry (existingVal : Option Value) (val : Value) : Option Value :=
  match existingVal with
  | none => some val
  | some existingVal =>
    if !existingVal.isObjectType || !val.isObjectType then some val
    else
      match mergeCty existingVal val with
      | none => none
      | some (.cty merged) => some merged
      | some _ => some val

/-- The function `AppendToList`; `none` when a call of `AsValueSlice` panics. -/
def AppendToList (existing patch : Dyn) : Option Dyn :=
  match existing, patch with
  | .cty existingCty, .cty patchCty =>
    if !existingCty.isTupleType && !existingCty.isListType then some patch
    else if !patchCty.isTupleType && !patchCty.isListType then some patch
    else
      match existingCty.AsValueSlice, patchCty.AsValueSlice with
      | some existingList, some patchList => some (.cty (.tuple (existingList ++ patchList)))
      | _, _ => none
  | _, _ => some patch

/-! ## `hclwrite` bodies and blocks -/

mutual
/-- An `hclwrite.Body`: its attributes (name and expression tokens, in source
order) and its nested blocks. -/
inductive Body where
  | mk (attributes : List (String × Tokens)) (blocks : List Block)
/-- An `hclwrite.Block`: type name, labels and body. -/
inductive Block where
  | mk (typeName : String) (labels : List String) (body : Body)
end

/-- The attributes of a body. -/
def Body.attributes : Body → List (String × Tokens)
  | .mk attributes _ => attributes

/-- The method `Blocks()` of a body. -/
def Body.Blocks : Body → List Block
  | .mk _ blocks => blocks

/-- The method `Type()` of a block. -/
def Block.Type_ : Block → String
  | .mk typeName _ _ => typeName

/-- The method `Labels()` of a block. -/
def Block.Labels : Block → List String
  | .mk _ labels _ => labels

/-- The method `Body()` of a block. -/
def Block.Body : Block → Body
  | .mk _ _ body => body

/-- The block with its body replaced: the effect, seen from the block, of
mutating the body that `Body()` returned. -/
def Block.withBody : Block → Kungfu.Body → Block
  | .mk typeName labels _, body => .mk typeName labels body

/-- The method `GetAttribute`, returning the tokens of the attribute's
expression (`attr.Expr().BuildTokens(nil)`). -/
def Body.GetAttribute (body : Body) (name : String) : Option Tokens :=
  GoMap.get body.attributes name

/-- The method `RemoveAttribute`. -/
def Body.RemoveAttribute (body : Body) (name : String) : Body :=
  .mk (GoMap.delete body.attributes name) body.Blocks

/-- The method `SetAttributeRaw`: replaces the expression of an existing
attribute, or appends a new attribute. -/
def Body.SetAttributeRaw (body : Body) (name : String) (tokens : Tokens) : Body :=
  .mk (GoMap.store body.attributes name tokens) body.Blocks

/-! ## `internal/models`: patches and parsed files -/

/-- The struct `models.PatchAttribute`. -/
structure PatchAttribute where
  Value : Dyn
  Strategy : MergeStrategy

/-- The struct `models.Patch`. -/
structure Patch where
  ResourceType : String
  ResourceName : String
  Source : String := ""
  Attributes : List (String × PatchAttribute)
  Body : Option Body := none
  Range : Range := ⟨0, 0⟩

/-- The struct `models.Resource`; `Block` is the position of the block among
the top-level blocks of the owning file. -/
structure Resource where
  Type_ : String
  Name : String
  Block : Nat
deriving DecidableEq, Repr

/-- The struct `models.Variable`. -/
structure Variable where
  Name : String
  Block : Nat
deriving DecidableEq, Repr

/-- The struct `models.Output`. -/
structure Output where
  Name : String
  Block : Nat
deriving DecidableEq, Repr

/-- The struct `models.Local`. -/
structure Local where
  Block : Nat
deriving DecidableEq, Repr

/-- The struct `models.DataSource`. -/
structure DataSource where
  Type_ : String
  Name : String
  Block : Nat
deriving DecidableEq, Repr

/-- The struct `models.HCLFile`; `WriteFile` is the root body of the editable
syntax tree. -/
structure HCLFile where
  Path : String
  OrigBytes : Bytes
  WriteFile : Body
  Resources : List (String × Resource)
  Variables : List (String × Variable)
  Outputs : List (String × Output)
  Locals : List (String × Local)
  Data : List (String × DataSource)

/-- A Go `map[string]*models.HCLFile`, keyed by path. -/
abbrev Files := List (String × HCLFile)

/-! ## `internal/parser`: indexing a parsed file, strategy markers -/

/-- The constant `expectedResourceLabels`. -/
def expectedResourceLabels : Nat := 2

/-- One iteration of the loop over `body.Blocks()` in `ParseHCLFile`, for the
block at position `pos`. -/
def indexBlock (hclFile : HCLFile) (pos : Nat) (block : Block) : HCLFile :=
  if block.Type_ = "resource" then
    match block.Labels with
    | [l0, l1] =>
      { hclFile with
        Resources := GoMap.store hclFile.Resources (ResourceKey l0 l1) ⟨l0, l1, pos⟩ }
    | _ => hclFile
  else if block.Type_ = "variable" then
    match block.Labels with
    | [l0] => { hclFile with Variables := GoMap.store hclFile.Variables l0 ⟨l0, pos⟩ }
    | _ => hclFile
  else if block.Type_ = "output" then
    match block.Labels with
    | [l0] => { hclFile with Outputs := GoMap.store hclFile.Outputs l0 ⟨l0, pos⟩ }
    | _ => hclFile
  else if block.Type_ = "locals" then
    { hclFile with Locals := GoMap.store hclFile.Locals "locals" ⟨pos⟩ }
  else if block.Type_ = "data" then
    match block.Labels with
    | [l0, l1] =>
      { hclFile with Data := GoMap.store hclFile.Data (ResourceKey l0 l1) ⟨l0, l1, pos⟩ }
    | _ => hclFile
  else hclFile

/-- The loop over `body.Blocks()` in `ParseHCLFile`, from position `pos` on. -/
def indexBlocks (hclFile : HCLFile) (pos : Nat) : List Block → HCLFile
  | [] => hclFile
  | block :: rest => indexBlocks (indexBlock hclFile pos block) (pos + 1) rest

/-- The function `ParseHCLFile` after the file was read (`src`) and parsed for
writing (`writeFile`) without error. -/
def ParseHCLFile (path : String) (src : Bytes) (writeFile : Body) : HCLFile :=
  indexBlocks
    { Path := path, OrigBytes := src, WriteFile := writeFile,
      Resources := [], Variables := [], Outputs := [], Locals := [], Data := [] }
    0 writeFile.Blocks

/-- The function `detectMergeStrategy`. -/
def detectMergeStrategy (expr : Expr) : MergeStrategy × Expr :=
  match expr with
  | .functionCall name args _ =>
    if name = "merge" then
      match args with
      | [arg] => (StrategyMerge, arg)
      | _ => (StrategyReplace, expr)
    else if name = "append" then
      match args with
      | [arg] => (StrategyAppend, arg)
      | _ => (StrategyReplace, expr)
    else if name = "replace" then
      match args with
      | [arg] => (StrategyReplace, arg)
      | _ => (StrategyReplace, expr)
    else (StrategyReplace, expr)
  | _ => (StrategyReplace, expr)

/-! ## `internal/patcher`: applying patches -/

/-- The function `extractValue`: re-parse the tokens of an expression and
evaluate the result without an evaluation context; `nil` when either step
reports an error. -/
def extractValue (hcl : Hcl) (expr : Tokens) : Dyn :=
  match hcl.ParseExpression expr with
  | none => .nil
  | some parsed =>
    match hcl.Value parsed with
    | none => .nil
    | some val => .cty val

/-- The function `valueToTokens`.  The three integer cases of the type switch
are the constructor `int`, the two float cases the constructor `float`. -/
def valueToTokens (value : Dyn) : Tokens :=
  match value with
  | .cty v => .forValue v
  | .expression v =>
    let exprBytes := v.Range.SliceBytes (v.Range.SliceBytes [])
    if exprBytes.length > 0 then .forIdentifier exprBytes
    else .forValue (.string "")
  | .string v => .forValue (.string v)
  | .int v => .forValue (.number v)
  | .float v => .forValue (.number v)
  | .bool v => .forValue (.bool v)
  | .nil => .forValue (.string "<nil>")
  | .other rendering => .forValue (.string rendering)

/-- The function `replaceAttribute`: the body afterwards and the returned
error. -/
def replaceAttribute (body : Body) (name : String) (value : Dyn) :
    Body × Option Failure :=
  let body := body.RemoveAttribute name
  let tokens := valueToTokens value
  (body.SetAttributeRaw name tokens, none)

/-- The function `mergeAttribute`.  When `DeepMerge` panics the body has not
been touched yet; the message stands for the text of the library's panic. -/
def mergeAttribute (hcl : Hcl) (body : Body) (name : String) (value : Dyn) :
    Body × Option Failure :=
  match body.GetAttribute name with
  | none => replaceAttribute body name value
  | some existingExpr =>
    let existingVal := extractValue hcl existingExpr
    match DeepMerge existingVal value with
    | none => (body, some (.panic "value is null"))
    | some mergedVal =>
      let body := body.RemoveAttribute name
      let tokens := valueToTokens mergedVal
      (body.SetAttributeRaw name tokens, none)

/-- The function `appendAttribute`.  When `AppendToList` panics the body has
not been touched yet. -/
def appendAttribute (hcl : Hcl) (body : Body) (name : String) (value : Dyn) :
    Body × Option Failure :=
  match body.GetAttribute name with
  | none => replaceAttribute body name value
  | some existingExpr =>
    let existingVal := extractValue hcl existingExpr
    match AppendToList existingVal value with
    | none => (body, some (.panic "value is null"))
    | some appendedVal =>
      let body := body.RemoveAttribute name
      let tokens := valueToTokens appendedVal
      (body.SetAttributeRaw name tokens, none)

/-- The function `applyAttribute`. -/
def applyAttribute (hcl : Hcl) (body : Body) (name : String)
    (patchAttr : PatchAttribute) : Body × Option Failure :=
  if patchAttr.Strategy = StrategyReplace then
    replaceAttribute body name patchAttr.Value
  else if patchAttr.Strategy = StrategyMerge then
    mergeAttribute hcl body name patchAttr.Value
  else if patchAttr.Strategy = StrategyAppend then
    appendAttribute hcl body name patchAttr.Value
  else
    (body, some (.error ("unknown merge strategy: " ++ toString patchAttr.Strategy)))

/-- The loop `for attrName, patchAttr := range patch.Attributes` of
`applyPatch`: it stops at the first attribute that fails, wrapping a returned
error; a panic passes through as it is. -/
def applyAttributes (hcl : Hcl) (resourceBody : Body) :
    List (String × PatchAttribute) → Body × Option Failure
  | [] => (resourceBody, none)
  | (attrName, patchAttr) :: rest =>
    match applyAttribute hcl resourceBody attrName patchAttr with
    | (body, some (.error err)) =>
      (body, some (.error ("failed to apply attribute " ++ attrName ++ ": " ++ err)))
    | (body, some (.panic msg)) => (body, some (.panic msg))
    | (body, none) => applyAttributes hcl body rest

/-- The loop `for _, file := range files` of `applyPatch`: the first file whose
`Resources` holds the key, as its position in the iteration order, and the
resource it stores. -/
def findTargetResource : Files → String → Option (Nat × Resource)
  | [], _ => none
  | (_, file) :: rest, resourceKey =>
    match GoMap.get file.Resources resourceKey with
    | some resource => some (0, resource)
    | none =>
      match findTargetResource rest resourceKey with
      | some (filePos, resource) => some (filePos + 1, resource)
      | none => none

/-- The top-level block at position `blockPos` of the file at position
`filePos`. -/
def Files.blockAt (files : Files) (filePos blockPos : Nat) : Option Block :=
  match files.get? filePos with
  | none => none
  | some (_, file) => file.WriteFile.Blocks.get? blockPos

/-- The file with the top-level block at `blockPos` replaced. -/
def HCLFile.setBlock (file : HCLFile) (blockPos : Nat) (block : Block) : HCLFile :=
  { file with
    WriteFile := .mk file.WriteFile.attributes (file.WriteFile.Blocks.set blockPos block) }

/-- The file set with one top-level block of one file replaced. -/
def Files.setBlock (files : Files) (filePos blockPos : Nat) (block : Block) : Files :=
  files.modify (fun entry => (entry.1, entry.2.setBlock blockPos block)) filePos

/-- The function `applyPatch`: the file set after the in-place mutation and the
returned error.  A resource whose position holds no block cannot come out of
`ParseHCLFile`; the model leaves the files alone in that case. -/
def applyPatch (hcl : Hcl) (files : Files) (patch : Patch) : Files × Option Failure :=
  let resourceKey := ResourceKey patch.ResourceType patch.ResourceName
  match findTargetResource files resourceKey with
  | none =>
    (files, some (.error ("resource " ++ resourceKey ++ " not found in any file")))
  | some (filePos, targetResource) =>
    match files.blockAt filePos targetResource.Block with
    | none => (files, none)
    | some block =>
      match applyAttributes hcl block.Body patch.Attributes with
      | (resourceBody, err) =>
        (files.setBlock filePos targetResource.Block (block.withBody resourceBody), err)

/-- The loop `for _, patch := range patches` of `ApplyPatches`. -/
def applyPatchLoop (hcl : Hcl) (patchedFiles : Files) :
    List Patch → Files × Option Failure
  | [] => (patchedFiles, none)
  | patch :: rest =>
    match applyPatch hcl patchedFiles patch with
    | (files, some (.error err)) =>
      (files, some (.error ("failed to apply patch for " ++ patch.ResourceType ++ "." ++
        patch.ResourceName ++ ": " ++ err)))
    | (files, some (.panic msg)) => (files, some (.panic msg))
    | (files, none) => applyPatchLoop hcl files rest

/-- The function `ApplyPatches`: the state of the (shared) files afterwards and
the returned error; the map Go returns on success holds exactly these files. -/
def ApplyPatches (hcl : Hcl) (files : Files) (patches : List Patch) :
    Files × Option Failure :=
  applyPatchLoop hcl files patches

/-- A small instance of the library, for evaluating the definitions on concrete
inputs: it reads tokens written for a value back as a literal, evaluates
literals and nodes that record their value, and reports an error on everything
else. -/
def Hcl.literals : Hcl where
  ParseExpression := fun tokens =>
    match tokens with
    | .forValue v => some (.literalValue v ⟨0, 0⟩)
    | _ => none
  Value := fun expr =>
    match expr with
    | .literalValue v _ => some v
    | .otherExpr _ (some v) _ => some v
    | _ => none

/-- The file set was built as `parseModuleFiles` builds it: every entry is the
result of `ParseHCLFile` on its path. -/
def Files.Indexed (files : Files) : Prop :=
  ∀ entry ∈ files, ∃ src writeFile, entry.2 = ParseHCLFile entry.1 src writeFile

/-- The strategy is one of the three declared constants. -/
def MergeStrategy.Known (strategy : MergeStrategy) : Prop :=
  strategy = StrategyReplace ∨ strategy = StrategyMerge ∨ strategy = StrategyAppend

/-- Every entry of a resource index over the blocks `all` is stored under the
key of its own type and name and points at a `resource` block carrying exactly
these two labels. -/
def ResourcesSound (all : List Block) (resources : List (String × Resource)) : Prop :=
  ∀ key r, GoMap.get resources key = some r →
    key = ResourceKey r.Type_ r.Name ∧
    ∃ block, all.get? r.Block = some block ∧ block.Type_ = "resource" ∧
      block.Labels = [r.Type_, r.Name]

/-! ## `internal/parser`: overlay files -/

/-- The method `AsString` of a `cty.Value`: it panics, here `none`, on a value
that is not a string. -/
def Value.AsString : Value → Option String
  | .string s => some s
  | _ => none

/-- An `hclsyntax.Block` of an overlay file: type name, labels, the attributes
of its body (`block.Body.Attributes`, name and right-hand side, in iteration
order) and its range.  The blocks nested in its body are never read. -/
structure SyntaxBlock where
  Type_ : String
  Labels : List String
  Attributes : List (String × Expr)
  Range : Range

/-- The struct `models.KungfuConfig`. -/
structure KungfuConfig where
  Patches : List Patch

/-- The constant `expectedPatchLabels`. -/
def expectedPatchLabels : Nat := 2

/-- The loop `for name, attr := range block.Body.Attributes` of
`parsePatchBlock`, threading `patch`.  The error message leaves out the text of
the diagnostics, which the library produces. -/
def parsePatchAttributes (hcl : Hcl) (patch : Patch) :
    List (String × Expr) → Except Failure Patch
  | [] => .ok patch
  | (name, expr) :: rest =>
    if name = "source" then
      match hcl.Value expr with
      | none => .error (.error "failed to evaluate source attribute")
      | some val =>
        match val.AsString with
        | none => .error (.panic "not a string")
        | some source => parsePatchAttributes hcl { patch with Source := source } rest
    else
      match detectMergeStrategy expr with
      | (strategy, value) =>
        let patchAttr : PatchAttribute :=
          match hcl.Value value with
          | none => ⟨.expression value, strategy⟩
          | some evalValue => ⟨.cty evalValue, strategy⟩
        parsePatchAttributes hcl
          { patch with Attributes := GoMap.store patch.Attributes name patchAttr } rest

/-- The function `parsePatchBlock`. -/
def parsePatchBlock (hcl : Hcl) (block : SyntaxBlock) : Except Failure Patch :=
  if block.Labels.length ≠ expectedPatchLabels then
    .error (.error ("patch block requires exactly " ++ toString expectedPatchLabels ++
      " labels (type and name), got " ++ toString block.Labels.length))
  else
    parsePatchAttributes hcl
      { ResourceType := block.Labels.getD 0 "", ResourceName := block.Labels.getD 1 "",
        Attributes := [], Range := block.Range }
      block.Attributes

/-- The loop `for _, block := range body.Blocks` of `ParseKungfuFile`, threading
`config.Patches`. -/
def parsePatchBlocks (hcl : Hcl) (patches : List Patch) :
    List SyntaxBlock → Except Failure (List Patch)
  | [] => .ok patches
  | block :: rest =>
    if block.Type_ = "patch" then
      match parsePatchBlock hcl block with
      | .error (.error patchErr) =>
        .error (.error ("failed to parse patch block: " ++ patchErr))
      | .error (.panic msg) => .error (.panic msg)
      | .ok patch => parsePatchBlocks hcl (patches ++ [patch]) rest
    else parsePatchBlocks hcl patches rest

/-- The function `ParseKungfuFile` after the file was read and parsed without
error into the top-level blocks `blocks` (`body.Blocks`, in source order). -/
def ParseKungfuFile (hcl : Hcl) (blocks : List SyntaxBlock) : Except Failure KungfuConfig :=
  match parsePatchBlocks hcl [] blocks with
  | .error failure => .error failure
  | .ok patches => .ok ⟨patches⟩

/-! ## `cmd/build.go`: the runner -/

/-- The struct `models.ModuleCall`. -/
structure ModuleCall where
  Name : String
  Source : String
  Path : String
deriving DecidableEq, Repr

/-- The loop of `groupPatchesBySource`, threading `result`. -/
def groupPatchesLoop (result : List (String × List Patch)) :
    List Patch → List (String × List Patch)
  | [] => result
  | patch :: rest =>
    if patch.Source = "" then groupPatchesLoop result rest
    else
      groupPatchesLoop
        (GoMap.store result patch.Source
          ((GoMap.get result patch.Source).getD [] ++ [patch]))
        rest

/-- The function `groupPatchesBySource`. -/
def groupPatchesBySource (patches : List Patch) : List (String × List Patch) :=
  groupPatchesLoop [] patches

/-- The function `findModuleBySource`. -/
def findModuleBySource : List ModuleCall → String → Option ModuleCall
  | [], _ => none
  | mod :: rest, source =>
    if mod.Source = source then some mod else findModuleBySource rest source

/-- The function `strings.HasPrefix`. -/
def stringsHasPrefix (s start : String) : Bool :=
  start.data.isPrefixOf s.data

/-- The function `strings.TrimPrefix`. -/
def stringsTrimPrefix (s start : String) : String :=
  if stringsHasPrefix s start then ⟨s.data.drop start.data.length⟩ else s

/-- The loop over the registry hosts in `normalizeModuleSource`. -/
def normalizeLoop (source : String) : List String → String
  | [] => source
  | start :: rest =>
    if stringsHasPrefix source start then stringsTrimPrefix source start
    else normalizeLoop source rest

/-- The function `normalizeModuleSource`. -/
def normalizeModuleSource (source : String) : String :=
  normalizeLoop source ["registry.opentofu.org/", "registry.terraform.io/"]

/-- The file system as `patchSingleModule` uses it: `parseModuleFiles` stands for
the checks and reads up to and including `parseModuleFiles` (the path exists,
its `.tf` files are found and parsed), `writeModuleFiles` for the error, if any,
of writing the patched files. -/
structure ModuleStore where
  parseModuleFiles : ModuleCall → Except String Files
  writeModuleFiles : ModuleCall → Files → Option String

/-- What the runner has written so far: for each patched module, its name and
the patched files handed to `writeModuleFiles`. -/
abbrev Written := List (String × Files)

/-- The function `patchSingleModule`: the output written so far and the returned
error. -/
def patchSingleModule (hcl : Hcl) (store : ModuleStore) (written : Written)
    (module : ModuleCall) (patches : List Patch) : Written × Option Failure :=
  match store.parseModuleFiles module with
  | .error err => (written, some (.error err))
  | .ok parsedFiles =>
    match ApplyPatches hcl parsedFiles patches with
    | (_, some (.error patchErr)) =>
      (written, some (.error ("failed to apply patches: " ++ patchErr)))
    | (_, some (.panic msg)) => (written, some (.panic msg))
    | (patchedFiles, none) =>
      (written ++ [(module.Name, patchedFiles)],
        (store.writeModuleFiles module patchedFiles).map Failure.error)

/-- The function `applyPatchesToModules`, its loop threading the output written
so far. -/
def applyPatchesToModules (hcl : Hcl) (store : ModuleStore) (modules : List ModuleCall)
    (written : Written) : List (String × List Patch) → Written × Option Failure
  | [] => (written, none)
  | (source, patches) :: rest =>
    match findModuleBySource modules source with
    | none => applyPatchesToModules hcl store modules written rest
    | some module =>
      match patchSingleModule hcl store written module patches with
      | (written', some err) => (written', some err)
      | (written', none) => applyPatchesToModules hcl store modules written' rest

/-- A small file system, for evaluating the runner on concrete inputs: every
module holds the one file `main.tf` with the block `resource "aws_vpc" "this"`,
and every write succeeds. -/
def ModuleStore.single : ModuleStore where
  parseModuleFiles := fun _ =>
    .ok [("main.tf", ParseHCLFile "main.tf" []
      (.mk [] [.mk "resource" ["aws_vpc", "this"]
        (.mk [("cidr_block", .raw "\"10.0.0.0/16\"")] [])]))]
  writeModuleFiles := fun _ _ => none

/-! ## Reference definitions for the statements -/

/-- The resource key under which `ParseHCLFile` indexes a block: the block is a
`resource` block with exactly two labels. -/
def resourceKeyOf (block : Block) : Option String :=
  if block.Type_ = "resource" then
    match block.Labels with
    | [l0, l1] => some (ResourceKey l0 l1)
    | _ => none
  else none

/-- The Go map invariant along the objects that `DeepMerge` descends into: an
object has no repeated key, and its attribute values are well keyed in turn. -/
inductive Value.WellKeyed : Value → Prop where
  | object (attrs : List (String × Value)) :
      GoMap.NodupKeys attrs → (∀ entry ∈ attrs, Value.WellKeyed entry.2) →
      Value.WellKeyed (.object attrs)
  | other (v : Value) : v.isObjectType = false → Value.WellKeyed v

/-- The invariant `Value.WellKeyed` for a dynamic value. -/
def Dyn.WellKeyed : Dyn → Prop
  | .cty v => v.WellKeyed
  | _ => True

/-- The state of the resource index once the blocks before position `pos` of
`all` have been indexed. -/
def ResourcesIndexed (all : List Block) (pos : Nat) (resources : List (String × Resource)) :
    Prop :=
  GoMap.NodupKeys resources ∧
  (∀ key, GoMap.get resources key = none ↔
    ∀ i block, i < pos → all.get? i = some block → resourceKeyOf block ≠ some key) ∧
  (∀ key r, GoMap.get resources key = some r →
    r.Block < pos ∧
    ∃ block, all.get? r.Block = some block ∧ block.Type_ = "resource" ∧
      block.Labels = [r.Type_, r.Name] ∧ resourceKeyOf block = some key ∧
      ∀ later block', r.Block < later → later < pos → all.get? later = some block' →
        resourceKeyOf block' ≠ some key)

/-- What `applyAttribute` does as a function of the tokens of the existing
attribute (if any), read off its three strategy functions: the tokens that it
writes for the attribute it names, or the failure with which it leaves the body
as it was. -/
def applyStrategy (hcl : Hcl) (existing : Option Tokens) (patchAttr : PatchAttribute) :
    Except Failure Tokens :=
  if patchAttr.Strategy = StrategyReplace then .ok (valueToTokens patchAttr.Value)
  else if patchAttr.Strategy = StrategyMerge then
    match existing with
    | none => .ok (valueToTokens patchAttr.Value)
    | some tokens =>
      match DeepMerge (extractValue hcl tokens) patchAttr.Value with
      | none => .error (.panic "value is null")
      | some mergedVal => .ok (valueToTokens mergedVal)
  else if patchAttr.Strategy = StrategyAppend then
    match existing with
    | none => .ok (valueToTokens patchAttr.Value)
    | some tokens =>
      match AppendToList (extractValue hcl tokens) patchAttr.Value with
      | none => .error (.panic "value is null")
      | some appendedVal => .ok (valueToTokens appendedVal)
  else .error (.error ("unknown merge strategy: " ++ toString patchAttr.Strategy))
/-! ## Lemmas on association lists -/

namespace GoMap

theorem get_store_same {β : Type} (m : List (String × β)) (key : String) (val : β) :
    get (store m key val) key = some val := by
  induction m with
  | nil => simp [store, get]
  | cons hd tl ih =>
    obtain ⟨k, v⟩ := hd
    by_cases h : k = key
    · simp [store, get, h]
    · simp [store, get, h, ih]

theorem get_store_other {β : Type} (m : List (String × β)) (key key' : String) (val : β)
    (h : key ≠ key') : get (store m key val) key' = get m key' := by
  induction m with
  | nil => simp [store, get, h]
  | cons hd tl ih =>
    obtain ⟨k, v⟩ := hd
    by_cases hk : k = key
    · subst hk
      simp [store, get, h]
    · by_cases hk' : k = key'
      · subst hk'
        simp [store, get, hk]
      · simp [store, get, hk, hk', ih]

theorem get_delete_other {β : Type} (m : List (String × β)) (key key' : String)
    (h : key ≠ key') : get (delete m key) key' = get m key' := by
  induction m with
  | nil => simp [delete, get]
  | cons hd tl ih =>
    obtain ⟨k, v⟩ := hd
    by_cases hk : k = key
    · subst hk
      simp [delete, get, h]
    · by_cases hk' : k = key'
      · subst hk'
        simp [delete, get, hk]
      · simp [delete, get, hk, hk', ih]

theorem get_eq_none_iff {β : Type} (m : List (String × β)) (key : String) :
    get m key = none ↔ key ∉ keys m := by
  induction m with
  | nil => simp [get, keys]
  | cons hd tl ih =>
    obtain ⟨k, v⟩ := hd
    by_cases hk : k = key
    · simp [get, keys, hk]
    · have hk' : ¬ key = k := fun e => hk e.symm
      simp only [get, hk, if_false, ih]
      simp [keys, hk']

theorem mem_of_get_some {β : Type} (m : List (String × β)) (key : String) (val : β)
    (h : get m key = some val) : (key, val) ∈ m := by
  induction m with
  | nil => simp [get] at h
  | cons hd tl ih =>
    obtain ⟨k, v⟩ := hd
    by_cases hk : k = key
    · simp only [get, hk, if_true, Option.some.injEq] at h
      simp [hk, h]
    · simp only [get, hk, if_false] at h
      exact List.mem_cons_of_mem _ (ih h)

theorem get_some_mem_keys {β : Type} (m : List (String × β)) (key : String) (val : β)
    (h : get m key = some val) : key ∈ keys m := by
  by_contra hn
  rw [← get_eq_none_iff] at hn
  rw [hn] at h
  cases h

theorem store_of_get_none {β : Type} (m : List (String × β)) (key : String) (val : β)
    (h : get m key = none) : store m key val = m ++ [(key, val)] := by
  induction m with
  | nil => simp [store]
  | cons hd tl ih =>
    obtain ⟨k, v⟩ := hd
    by_cases hk : k = key
    · simp [get, hk] at h
    · simp only [get, hk, if_false] at h
      simp [store, hk, ih h]

theorem get_append_left {β : Type} (m m' : List (String × β)) (key : String) (val : β)
    (h : get m key = some val) : get (m ++ m') key = some val := by
  induction m with
  | nil => simp [get] at h
  | cons hd tl ih =>
    obtain ⟨k, v⟩ := hd
    by_cases hk : k = key
    · simp only [get, hk, if_true] at h
      simp [get, hk, h]
    · simp only [get, hk, if_false] at h
      simp [get, hk, ih h]

theorem get_append_right {β : Type} (m m' : List (String × β)) (key : String)
    (h : get m key = none) : get (m ++ m') key = get m' key := by
  induction m with
  | nil => simp
  | cons hd tl ih =>
    obtain ⟨k, v⟩ := hd
    by_cases hk : k = key
    · simp [get, hk] at h
    · simp only [get, hk, if_false] at h
      simp [get, hk, ih h]

theorem keys_append {β : Type} (m m' : List (String × β)) :
    keys (m ++ m') = keys m ++ keys m' := by
  simp [keys]

end GoMap

/-! ## Lemmas on the merge engine -/

theorem mergeLoop_nil (mergedMap : List (String × Value)) :
    mergeLoop mergedMap [] = some mergedMap := by
  rw [mergeLoop]

theorem mergeLoop_cons (mergedMap : List (String × Value)) (key : String) (val : Value)
    (rest : List (String × Value)) :
    mergeLoop mergedMap ((key, val) :: rest) =
      match mergedEntry (GoMap.get mergedMap key) val with
      | none => none
      | some stored => mergeLoop (GoMap.store mergedMap key stored) rest := by
  rw [mergeLoop]
  cases hget : GoMap.get mergedMap key with
  | none => simp [mergedEntry]
  | some existingVal =>
    simp only [mergedEntry]
    by_cases hobj : (!existingVal.isObjectType || !val.isObjectType) = true
    · simp [hobj]
    · simp only [hobj, if_false]
      cases hmerge : mergeCty existingVal val with
      | none => rfl
      | some merged => cases merged <;> rfl

theorem mergeCty_object (existingMap patchMap : List (String × Value)) :
    mergeCty (.object existingMap) (.object patchMap) =
      match mergeLoop existingMap patchMap with
      | none => none
      | some mergedMap => some (.cty (.object mergedMap)) := by
  rw [mergeCty]
  simp [Value.isObjectType, Value.AsValueMap]

theorem mergeCty_of_not_objects (existingCty patchCty : Value)
    (h : ¬ (existingCty.isObjectType = true ∧ patchCty.isObjectType = true)) :
    mergeCty existingCty patchCty = some (.cty patchCty) := by
  cases patchCty with
  | object patchMap =>
    have he : existingCty.isObjectType = false := by
      cases hobj : existingCty.isObjectType with
      | false => rfl
      | true => exact absurd ⟨hobj, rfl⟩ h
    rw [mergeCty]
    simp [he]
  | nullOf ty =>
    have hor : (!existingCty.isObjectType || !(Value.nullOf ty).isObjectType) = true := by
      cases he : existingCty.isObjectType with
      | false => rfl
      | true =>
        cases hp : (Value.nullOf ty).isObjectType with
        | false => rfl
        | true => exact absurd ⟨he, hp⟩ h
    rw [mergeCty]
    simp only [hor, if_true]
  | _ => simp [mergeCty]

/-- Merging a patch map whose keys are new and pairwise distinct appends it. -/
theorem mergeLoop_disjoint (patchMap : List (String × Value)) :
    ∀ (mergedMap : List (String × Value)),
      GoMap.NodupKeys patchMap →
      (∀ k, k ∈ GoMap.keys mergedMap → k ∉ GoMap.keys patchMap) →
      mergeLoop mergedMap patchMap = some (mergedMap ++ patchMap) := by
  induction patchMap with
  | nil => intro mergedMap _ _; simp [mergeLoop_nil]
  | cons hd tl ih =>
    obtain ⟨k, v⟩ := hd
    intro mergedMap hnd hdisj
    simp only [GoMap.NodupKeys, GoMap.keys, List.map_cons, List.nodup_cons] at hnd
    have hnone : GoMap.get mergedMap k = none := by
      rw [GoMap.get_eq_none_iff]
      intro hmem
      exact hdisj k hmem (by simp [GoMap.keys])
    rw [mergeLoop_cons, hnone]
    simp only [mergedEntry]
    rw [GoMap.store_of_get_none _ _ _ hnone, ih _ hnd.2]
    · simp
    · intro k' hk' hk'tl
      rw [GoMap.keys_append] at hk'
      rcases List.mem_append.1 hk' with h | h
      · exact hdisj k' h (by simp only [GoMap.keys] at hk'tl ⊢; simp [hk'tl])
      · simp only [GoMap.keys, List.map_cons, List.map_nil, List.mem_singleton] at h
        subst h
        exact hnd.1 hk'tl

/-- What the merged map holds under `key` after the loop of `DeepMerge` ran to
its end over a patch map without repeated keys. -/
theorem get_mergeLoop (patchMap : List (String × Value)) :
    ∀ (mergedMap result : List (String × Value)) (key : String),
      GoMap.NodupKeys patchMap →
      mergeLoop mergedMap patchMap = some result →
      GoMap.get result key =
        match GoMap.get patchMap key with
        | none => GoMap.get mergedMap key
        | some val => mergedEntry (GoMap.get mergedMap key) val := by
  induction patchMap with
  | nil =>
    intro mergedMap result key _ hloop
    rw [mergeLoop_nil] at hloop
    cases hloop
    simp [GoMap.get]
  | cons hd tl ih =>
    obtain ⟨k, v⟩ := hd
    intro mergedMap result key hnd hloop
    simp only [GoMap.NodupKeys, GoMap.keys, List.map_cons, List.nodup_cons] at hnd
    obtain ⟨hk, hnd'⟩ := hnd
    rw [mergeLoop_cons] at hloop
    cases hentry : mergedEntry (GoMap.get mergedMap k) v with
    | none => simp [hentry] at hloop
    | some stored =>
      simp only [hentry] at hloop
      rw [ih _ result key hnd' hloop]
      by_cases hkey : k = key
      · subst hkey
        have hnone : GoMap.get tl k = none := (GoMap.get_eq_none_iff tl k).2 hk
        simp [hnone, GoMap.get, GoMap.get_store_same, hentry]
      · simp only [GoMap.get, hkey, if_false, GoMap.get_store_other _ _ _ _ hkey]

/-- Every iteration of a loop of `DeepMerge` that ran to its end over a patch
map without repeated keys stored a value. -/
theorem mergeLoop_entry_stored (patchMap : List (String × Value)) :
    ∀ (mergedMap result : List (String × Value)),
      GoMap.NodupKeys patchMap →
      mergeLoop mergedMap patchMap = some result →
      ∀ entry ∈ patchMap, ∃ stored,
        mergedEntry (GoMap.get mergedMap entry.1) entry.2 = some stored := by
  induction patchMap with
  | nil => intro _ _ _ _ entry hentry; exact absurd hentry (List.not_mem_nil entry)
  | cons hd tl ih =>
    obtain ⟨k, v⟩ := hd
    intro mergedMap result hnd hloop entry hmem
    simp only [GoMap.NodupKeys, GoMap.keys, List.map_cons, List.nodup_cons] at hnd
    obtain ⟨hk, hnd'⟩ := hnd
    rw [mergeLoop_cons] at hloop
    cases hentry : mergedEntry (GoMap.get mergedMap k) v with
    | none => simp [hentry] at hloop
    | some stored =>
      simp only [hentry] at hloop
      rcases List.mem_cons.1 hmem with h | h
      · subst h
        exact ⟨stored, hentry⟩
      · obtain ⟨stored', hstored'⟩ := ih _ result hnd' hloop entry h
        have hne : ¬ k = entry.1 := by
          intro heq
          apply hk
          rw [heq]
          exact List.mem_map_of_mem Prod.fst h
        rw [GoMap.get_store_other _ _ _ _ hne] at hstored'
        exact ⟨stored', hstored'⟩

theorem mergeCty_isCty (existingCty patchCty : Value) (result : Dyn)
    (h : mergeCty existingCty patchCty = some result) : ∃ merged, result = .cty merged := by
  by_cases hboth : existingCty.isObjectType = true ∧ patchCty.isObjectType = true
  · obtain ⟨he, hp⟩ := hboth
    cases patchCty with
    | object patchMap =>
      rw [mergeCty] at h
      simp only [he, Bool.not_true, Bool.false_eq_true, if_false] at h
      cases hmap : existingCty.AsValueMap with
      | none => simp [hmap] at h
      | some existingMap =>
        simp only [hmap] at h
        cases hloop : mergeLoop existingMap patchMap with
        | none => simp [hloop] at h
        | some mergedMap =>
          simp only [hloop, Option.some.injEq] at h
          exact ⟨_, h.symm⟩
    | nullOf ty =>
      rw [mergeCty] at h
      simp only [he, hp, Bool.not_true, Bool.or_self, Bool.false_eq_true, if_false] at h
      cases hmap : existingCty.AsValueMap with
      | none => simp [hmap] at h
      | some existingMap =>
        cases hmap' : (Value.nullOf ty).AsValueMap with
        | none => simp [hmap, hmap'] at h
        | some patchMap =>
          simp only [hmap, hmap', Option.some.injEq] at h
          exact ⟨_, h.symm⟩
    | _ => simp [Value.isObjectType] at hp
  · rw [mergeCty_of_not_objects _ _ hboth] at h
    cases h
    exact ⟨_, rfl⟩

theorem Value.WellKeyed.object_of_isObjectType (v : Value) (h : v.WellKeyed)
    (hobj : v.isObjectType = true) : ∃ attrs, v = .object attrs := by
  cases h with
  | object attrs _ _ => exact ⟨attrs, rfl⟩
  | other _ hv =>
    rw [hv] at hobj
    cases hobj

/-- Merging a known object onto a value of object type, when it returns, merges
the patch map onto the map of the existing value. -/
theorem mergeCty_onto_object (existingCty : Value) (patchMap : List (String × Value))
    (merged : Value) (he : existingCty.isObjectType = true)
    (h : mergeCty existingCty (.object patchMap) = some (.cty merged)) :
    ∃ existingMap mergedMap, existingCty.AsValueMap = some existingMap ∧
      mergeLoop existingMap patchMap = some mergedMap ∧ merged = .object mergedMap := by
  rw [mergeCty] at h
  simp only [he, Bool.not_true, Bool.false_eq_true, if_false] at h
  cases hmap : existingCty.AsValueMap with
  | none => simp [hmap] at h
  | some existingMap =>
    simp only [hmap] at h
    cases hloop : mergeLoop existingMap patchMap with
    | none => simp [hloop] at h
    | some mergedMap =>
      simp only [hloop, Option.some.injEq, Dyn.cty.injEq] at h
      refine ⟨existingMap, mergedMap, ?_, hloop, h.symm⟩
      first | exact hmap | rfl

theorem mergedEntry_of_not_object (existingVal : Option Value) (val : Value)
    (h : val.isObjectType = false) : mergedEntry existingVal val = some val := by
  cases existingVal with
  | none => rfl
  | some e => simp [mergedEntry, h]

theorem mergedEntry_of_existing_not_object (existingVal val : Value)
    (h : existingVal.isObjectType = false) :
    mergedEntry (some existingVal) val = some val := by
  simp [mergedEntry, h]

theorem mergedEntry_of_objects (existingVal val : Value)
    (h1 : existingVal.isObjectType = true) (h2 : val.isObjectType = true) :
    mergedEntry (some existingVal) val =
      match mergeCty existingVal val with
      | none => none
      | some (.cty merged) => some merged
      | some _ => some val := by
  simp [mergedEntry, h1, h2]

/-! ## The merge engine: `DeepMerge` and `AppendToList` -/

/-- C1: for object values A and B that share no key, `DeepMerge(A, B)` is an
object with exactly |A|+|B| keys (the keys of A and the keys of B), in which
every key of A maps to the value it had in A and every key of B maps to the
value it had in B. -/
theorem C1_deepMerge_disjoint_keys (A B : List (String × Value))
    (hA : GoMap.NodupKeys A) (hB : GoMap.NodupKeys B)
    (hdisj : ∀ k, k ∈ GoMap.keys A → k ∉ GoMap.keys B) :
    ∃ M, DeepMerge (.cty (.object A)) (.cty (.object B)) = some (.cty (.object M)) ∧
      GoMap.NodupKeys M ∧
      (GoMap.keys M).length = (GoMap.keys A).length + (GoMap.keys B).length ∧
      (∀ k, k ∈ GoMap.keys M ↔ k ∈ GoMap.keys A ∨ k ∈ GoMap.keys B) ∧
      (∀ k v, GoMap.get A k = some v → GoMap.get M k = some v) ∧
      (∀ k v, GoMap.get B k = some v → GoMap.get M k = some v) := by
  refine ⟨A ++ B, ?_, ?_, ?_, ?_, ?_, ?_⟩
  · simp only [DeepMerge]
    rw [mergeCty_object, mergeLoop_disjoint B A hB hdisj]
  · simp only [GoMap.NodupKeys, GoMap.keys_append]
    exact List.Nodup.append hA hB (fun k hk hk' => hdisj k hk hk')
  · simp [GoMap.keys_append]
  · intro k
    simp [GoMap.keys_append]
  · intro k v h
    exact GoMap.get_append_left A B k v h
  · intro k v h
    have hkB : k ∈ GoMap.keys B := GoMap.get_some_mem_keys B k v h
    have hnone : GoMap.get A k = none := by
      rw [GoMap.get_eq_none_iff]
      intro hkA
      exact hdisj k hkA hkB
    rw [GoMap.get_append_right A B k hnone]
    exact h

/-- Witness of C1 on the objects of `TestDeepMerge_PreservesOriginalKeys`. -/
theorem C1_deepMerge_disjoint_keys_witness :
    ∃ M, DeepMerge
        (.cty (.object [("Name", .string "web"), ("Env", .string "prod")]))
        (.cty (.object [("Owner", .string "team")])) = some (.cty (.object M)) ∧
      GoMap.NodupKeys M ∧
      (GoMap.keys M).length =
        (GoMap.keys [("Name", Value.string "web"), ("Env", Value.string "prod")]).length +
          (GoMap.keys [("Owner", Value.string "team")]).length ∧
      (∀ k, k ∈ GoMap.keys M ↔
        k ∈ GoMap.keys [("Name", Value.string "web"), ("Env", Value.string "prod")] ∨
          k ∈ GoMap.keys [("Owner", Value.string "team")]) ∧
      (∀ k v, GoMap.get [("Name", Value.string "web"), ("Env", Value.string "prod")] k
          = some v → GoMap.get M k = some v) ∧
      (∀ k v, GoMap.get [("Owner", Value.string "team")] k = some v →
        GoMap.get M k = some v) :=
  C1_deepMerge_disjoint_keys
    [("Name", .string "web"), ("Env", .string "prod")] [("Owner", .string "team")]
    (by simp [GoMap.NodupKeys, GoMap.keys])
    (by simp [GoMap.NodupKeys, GoMap.keys])
    (by simp [GoMap.keys])

/-- What a merge of two known objects that returns holds under a key of both:
the patch's value unless both values are of object type, and then the value that
the recursive call returns; for two known objects that is the object of their
merged maps. -/
theorem deepMerge_common_key (existing patch merged : List (String × Value)) (k : String)
    (existingVal patchVal : Value) (hpatch : GoMap.NodupKeys patch)
    (hmerged : DeepMerge (.cty (.object existing)) (.cty (.object patch)) =
      some (.cty (.object merged)))
    (hev : GoMap.get existing k = some existingVal)
    (hpv : GoMap.get patch k = some patchVal) :
    (¬ (existingVal.isObjectType = true ∧ patchVal.isObjectType = true) →
      GoMap.get merged k = some patchVal) ∧
    (existingVal.isObjectType = true → patchVal.isObjectType = true →
      ∃ sub, DeepMerge (.cty existingVal) (.cty patchVal) = some (.cty sub) ∧
        GoMap.get merged k = some sub) ∧
    (∀ existingMap patchMap, existingVal = .object existingMap →
      patchVal = .object patchMap →
      ∃ subMap, mergeLoop existingMap patchMap = some subMap ∧
        GoMap.get merged k = some (.object subMap)) := by
  have hloop : mergeLoop existing patch = some merged := by
    simp only [DeepMerge] at hmerged
    rw [mergeCty_object] at hmerged
    cases h : mergeLoop existing patch with
    | none => simp [h] at hmerged
    | some m =>
      simp only [h, Option.some.injEq, Dyn.cty.injEq, Value.object.injEq] at hmerged
      rw [hmerged]
  have hget := get_mergeLoop patch existing merged k hpatch hloop
  rw [hpv, hev] at hget
  simp only at hget
  have hboth : existingVal.isObjectType = true → patchVal.isObjectType = true →
      ∃ sub, mergeCty existingVal patchVal = some (.cty sub) ∧
        GoMap.get merged k = some sub := by
    intro h1 h2
    rw [mergedEntry_of_objects _ _ h1 h2] at hget
    cases hsub : mergeCty existingVal patchVal with
    | none =>
      exfalso
      have hentry := mergeLoop_entry_stored patch existing merged hpatch hloop (k, patchVal)
        (GoMap.mem_of_get_some patch k patchVal hpv)
      obtain ⟨stored, hstored⟩ := hentry
      simp only [hev] at hstored
      rw [mergedEntry_of_objects _ _ h1 h2, hsub] at hstored
      cases hstored
    | some result =>
      obtain ⟨sub, hresult⟩ := mergeCty_isCty _ _ _ hsub
      subst hresult
      rw [hsub] at hget
      exact ⟨sub, rfl, hget⟩
  refine ⟨?_, hboth, ?_⟩
  · intro hnot
    rw [hget]
    by_cases h1 : existingVal.isObjectType = true
    · have h2 : patchVal.isObjectType = false := by
        cases h : patchVal.isObjectType with
        | false => rfl
        | true => exact absurd ⟨h1, h⟩ hnot
      exact mergedEntry_of_not_object _ _ h2
    · have h1' : existingVal.isObjectType = false := by
        cases h : existingVal.isObjectType with
        | false => rfl
        | true => exact absurd h h1
      exact mergedEntry_of_existing_not_object _ _ h1'
  · intro existingMap patchMap he hp
    subst he
    subst hp
    obtain ⟨sub, hsub, hk⟩ := hboth rfl rfl
    rw [mergeCty_object] at hsub
    cases hl : mergeLoop existingMap patchMap with
    | none => simp [hl] at hsub
    | some subMap =>
      simp only [hl, Option.some.injEq, Dyn.cty.injEq] at hsub
      rw [← hsub] at hk
      exact ⟨subMap, rfl, hk⟩

/-- C2 (the code at the failing input): `DeepMerge` tests only the type of the
two values under a common key, so a null of an object type counts as an object.
With such a null under `limits` the recursive call panics in `AsValueMap` and
the whole merge crashes, although `name` and `limits` should both take the
patch's value; with a null of the empty object type the existing value is kept
instead of the patch's.  On known values the code does what the claim says: two
objects under a key are merged recursively, anything else is overwritten. -/
theorem C2_deepMerge_common_key_null :
    DeepMerge
        (.cty (.object [("name", .string "web"), ("limits", .object [("cpu", .number 1)])]))
        (.cty (.object [("name", .string "api"),
          ("limits", .nullOf (.object [("cpu", .number)]))])) = none ∧
    DeepMerge
        (.cty (.object [("limits", .object [("cpu", .number 1)])]))
        (.cty (.object [("limits", .nullOf (.object []))])) =
      some (.cty (.object [("limits", .object [("cpu", .number 1)])])) ∧
    DeepMerge
        (.cty (.object [("k", .object [("x", .number 1)])]))
        (.cty (.object [("k", .object [("y", .number 2)])])) =
      some (.cty (.object [("k", .object [("x", .number 1), ("y", .number 2)])])) ∧
    DeepMerge
        (.cty (.object [("Name", .string "old")]))
        (.cty (.object [("Name", .string "new")])) =
      some (.cty (.object [("Name", .string "new")])) :=
  ⟨rfl, rfl, rfl, rfl⟩

/-- C3: when at least one of the two arguments is not an object (a scalar, a
list or tuple, an absent value, an unevaluated expression), `DeepMerge` returns
exactly the patch. -/
theorem C3_deepMerge_non_object (existing patch : Dyn)
    (h : existing.isObject = false ∨ patch.isObject = false) :
    DeepMerge existing patch = some patch := by
  cases existing with
  | cty e =>
    cases patch with
    | cty p =>
      simp only [DeepMerge]
      apply mergeCty_of_not_objects
      rintro ⟨h1, h2⟩
      simp only [Dyn.isObject] at h
      rcases h with h | h
      · rw [h1] at h; cases h
      · rw [h2] at h; cases h
    | _ => rfl
  | _ => cases patch <;> rfl

/-- Witness of C3: an object patch merged onto an absent existing value. -/
theorem C3_deepMerge_non_object_witness :
    DeepMerge .nil (.cty (.object [("Owner", .string "team")])) =
      some (.cty (.object [("Owner", .string "team")])) :=
  C3_deepMerge_non_object .nil (.cty (.object [("Owner", .string "team")])) (Or.inl rfl)

theorem appendToList_of_slices (existingCty patchCty : Value)
    (existingList patchList : List Value)
    (he : (existingCty.isTupleType || existingCty.isListType) = true)
    (hp : (patchCty.isTupleType || patchCty.isListType) = true)
    (hel : existingCty.AsValueSlice = some existingList)
    (hpl : patchCty.AsValueSlice = some patchList) :
    AppendToList (.cty existingCty) (.cty patchCty) =
      some (.cty (.tuple (existingList ++ patchList))) := by
  have he' : (!existingCty.isTupleType && !existingCty.isListType) = false := by
    cases h1 : existingCty.isTupleType <;> cases h2 : existingCty.isListType <;> simp_all
  have hp' : (!patchCty.isTupleType && !patchCty.isListType) = false := by
    cases h1 : patchCty.isTupleType <;> cases h2 : patchCty.isListType <;> simp_all
  simp [AppendToList, he', hp', hel, hpl]

theorem appendToList_of_not_sequences (existing patch : Dyn)
    (h : ¬ (existing.isSequence = true ∧ patch.isSequence = true)) :
    AppendToList existing patch = some patch := by
  cases existing with
  | cty e =>
    cases patch with
    | cty p =>
      simp only [Dyn.isSequence, Bool.or_eq_true] at h
      simp only [AppendToList]
      by_cases he : (!e.isTupleType && !e.isListType) = true
      · simp [he]
      · by_cases hp : (!p.isTupleType && !p.isListType) = true
        · simp [he, hp]
        · exfalso
          apply h
          constructor
          · cases h1 : e.isTupleType <;> cases h2 : e.isListType <;> simp_all
          · cases h1 : p.isTupleType <;> cases h2 : p.isListType <;> simp_all
    | _ => rfl
  | _ => cases patch <;> rfl

/-- C4 (the code at the failing input): `AppendToList` tests only the type of
its arguments, so the null of a tuple type, the value of
`false ? ["sg-new"] : null`, is taken for a sequence and `AsValueSlice` panics
on it, as patch and as existing value.  On known sequences the code concatenates
in order, and a value of another type makes the patch win. -/
theorem C4_appendToList_null_sequence :
    AppendToList (.cty (.tuple [.string "sg-default"]))
        (.cty (.nullOf (.tuple [.string]))) = none ∧
    AppendToList (.cty (.nullOf (.tuple [.string])))
        (.cty (.tuple [.string "sg-new"])) = none ∧
    AppendToList (.cty (.tuple [.string "one"])) (.cty (.tuple [.string "two"])) =
      some (.cty (.tuple [.string "one", .string "two"])) ∧
    AppendToList (.cty (.list [.string "a", .string "b"])) (.cty (.tuple [.string "a"])) =
      some (.cty (.tuple [.string "a", .string "b", .string "a"])) ∧
    AppendToList (.cty (.string "one")) (.cty (.tuple [.string "two"])) =
      some (.cty (.tuple [.string "two"])) ∧
    AppendToList .nil (.cty (.tuple [.string "two"])) =
      some (.cty (.tuple [.string "two"])) :=
  ⟨rfl, rfl, rfl, rfl, rfl, rfl⟩
/-! ## Writing one attribute -/

theorem GoMap.delete_store_same {β : Type} (m : List (String × β)) (key : String)
    (val : β) : GoMap.delete (GoMap.store m key val) key = GoMap.delete m key := by
  induction m with
  | nil => simp [GoMap.store, GoMap.delete]
  | cons hd tl ih =>
    obtain ⟨k, v⟩ := hd
    by_cases hk : k = key
    · simp [GoMap.store, GoMap.delete, hk]
    · simp [GoMap.store, GoMap.delete, hk, ih]

theorem GoMap.delete_delete_same {β : Type} (m : List (String × β)) (key : String)
    (h : GoMap.get m key = none) : GoMap.delete m key = m := by
  induction m with
  | nil => simp [GoMap.delete]
  | cons hd tl ih =>
    obtain ⟨k, v⟩ := hd
    by_cases hk : k = key
    · simp [GoMap.get, hk] at h
    · simp only [GoMap.get, hk, if_false] at h
      simp [GoMap.delete, hk, ih h]

theorem applyAttribute_replace (hcl : Hcl) (body : Body) (name : String) (value : Dyn) :
    applyAttribute hcl body name ⟨value, StrategyReplace⟩ =
      replaceAttribute body name value := by
  simp [applyAttribute]

theorem applyAttribute_merge (hcl : Hcl) (body : Body) (name : String) (value : Dyn) :
    applyAttribute hcl body name ⟨value, StrategyMerge⟩ =
      mergeAttribute hcl body name value := by
  simp [applyAttribute, StrategyMerge, StrategyReplace]

theorem applyAttribute_append (hcl : Hcl) (body : Body) (name : String) (value : Dyn) :
    applyAttribute hcl body name ⟨value, StrategyAppend⟩ =
      appendAttribute hcl body name value := by
  simp [applyAttribute, StrategyAppend, StrategyMerge, StrategyReplace]

/-- What a Replace-strategy attribute does in terms of `valueToTokens`: it sets
the attribute to `valueToTokens` of the patch value, without error, whatever the
attribute held before. -/
theorem applyAttribute_replace_writes (hcl : Hcl) (body : Body) (n : String) (v : Dyn) :
    (applyAttribute hcl body n ⟨v, StrategyReplace⟩).2 = none ∧
    (applyAttribute hcl body n ⟨v, StrategyReplace⟩).1.GetAttribute n =
      some (valueToTokens v) ∧
    (∀ previous : Tokens,
      applyAttribute hcl (body.SetAttributeRaw n previous) n ⟨v, StrategyReplace⟩ =
        applyAttribute hcl body n ⟨v, StrategyReplace⟩) := by
  simp only [applyAttribute_replace]
  obtain ⟨attributes, blocks⟩ := body
  refine ⟨rfl, ?_, ?_⟩
  · simp [replaceAttribute, Body.RemoveAttribute, Body.SetAttributeRaw, Body.GetAttribute,
      Body.attributes, GoMap.get_store_same]
  · intro previous
    simp [replaceAttribute, Body.RemoveAttribute, Body.SetAttributeRaw, Body.attributes,
      Body.Blocks, GoMap.delete_store_same]

theorem valueToTokens_expression (e : Expr) :
    valueToTokens (.expression e) = .forValue (.string "") := by
  have hnil : ∀ r : Range, r.SliceBytes [] = [] := by
    intro r
    simp [Range.SliceBytes]
  simp [valueToTokens, hnil]

/-- C5 (the code at the failing input): a Replace-strategy attribute whose value
is the retained expression `var.size` sets `instance_type` to the empty string
literal, exactly what it writes for the value `""` and for every other
expression, so what is written is not the serialization of the patch value.  For
a patch value that is a `cty.Value` the attribute is set to the tokens of that
value, without error. -/
theorem C5_replace_expression_written_empty :
    (applyAttribute Hcl.literals (.mk [("instance_type", .raw "\"t3.micro\"")] [])
        "instance_type"
        ⟨.expression (.scopeTraversal ["var", "size"] ⟨46, 54⟩), StrategyReplace⟩
      ).1.GetAttribute "instance_type" = some (.forValue (.string "")) ∧
    (∀ (hcl : Hcl) (body : Body) (n : String) (e : Expr),
      applyAttribute hcl body n ⟨.expression e, StrategyReplace⟩ =
        applyAttribute hcl body n ⟨.cty (.string ""), StrategyReplace⟩) ∧
    (∀ (hcl : Hcl) (body : Body) (n : String) (v : Value),
      (applyAttribute hcl body n ⟨.cty v, StrategyReplace⟩).2 = none ∧
      (applyAttribute hcl body n ⟨.cty v, StrategyReplace⟩).1.GetAttribute n =
        some (.forValue v)) := by
  refine ⟨rfl, ?_, ?_⟩
  · intro hcl body n e
    simp only [applyAttribute_replace, replaceAttribute, valueToTokens_expression]
    rfl
  · intro hcl body n v
    obtain ⟨h1, h2, _⟩ := applyAttribute_replace_writes hcl body n (.cty v)
    exact ⟨h1, h2⟩

/-- C6: a Merge- or Append-strategy attribute writes exactly what a
Replace-strategy attribute with the same value writes when the resource has no
attribute of that name, or has one whose expression `extractValue` cannot turn
into a value. -/
theorem C6_merge_append_degrade (hcl : Hcl) (body : Body) (n : String) (v : Dyn)
    (strategy : MergeStrategy)
    (hstrategy : strategy = StrategyMerge ∨ strategy = StrategyAppend)
    (hexisting : body.GetAttribute n = none ∨
      ∃ tokens, body.GetAttribute n = some tokens ∧ extractValue hcl tokens = .nil) :
    applyAttribute hcl body n ⟨v, strategy⟩ =
      applyAttribute hcl body n ⟨v, StrategyReplace⟩ := by
  have hmerge : DeepMerge .nil v = v := by cases v <;> rfl
  have happend : AppendToList .nil v = v := by cases v <;> rfl
  rcases hstrategy with hs | hs <;> subst hs
  · rw [applyAttribute_merge, applyAttribute_replace]
    rcases hexisting with h | ⟨tokens, h, hnil⟩
    · simp [mergeAttribute, h]
    · simp [mergeAttribute, h, hnil, hmerge, replaceAttribute]
  · rw [applyAttribute_append, applyAttribute_replace]
    rcases hexisting with h | ⟨tokens, h, hnil⟩
    · simp [appendAttribute, h]
    · simp [appendAttribute, h, hnil, happend, replaceAttribute]

/-- Witness of C6: a merge onto `tags = var.tags`, which the library cannot
evaluate. -/
theorem C6_merge_append_degrade_witness :
    applyAttribute Hcl.literals (.mk [("tags", .raw "var.tags")] []) "tags"
        ⟨.cty (.object [("Owner", .string "team")]), StrategyMerge⟩ =
      applyAttribute Hcl.literals (.mk [("tags", .raw "var.tags")] []) "tags"
        ⟨.cty (.object [("Owner", .string "team")]), StrategyReplace⟩ :=
  C6_merge_append_degrade Hcl.literals (.mk [("tags", .raw "var.tags")] []) "tags"
    (.cty (.object [("Owner", .string "team")])) StrategyMerge (Or.inl rfl)
    (Or.inr ⟨.raw "var.tags", rfl, rfl⟩)

/-! ## Strategy markers -/

/-- C10: `detectMergeStrategy` returns the strategy and the single argument for
a call to `merge`, `append` or `replace` with exactly one argument, and
`Replace` with the whole expression in every other case. -/
theorem C10_detectMergeStrategy :
    (∀ (a : Expr) (r : Range),
      detectMergeStrategy (.functionCall "merge" [a] r) = (StrategyMerge, a)) ∧
    (∀ (a : Expr) (r : Range),
      detectMergeStrategy (.functionCall "append" [a] r) = (StrategyAppend, a)) ∧
    (∀ (a : Expr) (r : Range),
      detectMergeStrategy (.functionCall "replace" [a] r) = (StrategyReplace, a)) ∧
    (∀ e : Expr,
      (¬ ∃ name a r, e = .functionCall name [a] r ∧
        (name = "merge" ∨ name = "append" ∨ name = "replace")) →
      detectMergeStrategy e = (StrategyReplace, e)) := by
  refine ⟨fun a r => by simp [detectMergeStrategy], fun a r => by simp [detectMergeStrategy],
    fun a r => by simp [detectMergeStrategy], ?_⟩
  intro e h
  cases e with
  | functionCall name args r =>
    simp only [detectMergeStrategy]
    by_cases h1 : name = "merge"
    · rw [if_pos h1]
      split
      · exact absurd ⟨name, _, r, rfl, Or.inl h1⟩ h
      · rfl
    · rw [if_neg h1]
      by_cases h2 : name = "append"
      · rw [if_pos h2]
        split
        · exact absurd ⟨name, _, r, rfl, Or.inr (Or.inl h2)⟩ h
        · rfl
      · rw [if_neg h2]
        by_cases h3 : name = "replace"
        · rw [if_pos h3]
          split
          · exact absurd ⟨name, _, r, rfl, Or.inr (Or.inr h3)⟩ h
          · rfl
        · rw [if_neg h3]
  | _ => rfl

/-- Witness of C10: a `merge` call with two arguments keeps the whole
expression under `Replace`. -/
theorem C10_detectMergeStrategy_witness :
    detectMergeStrategy
        (.functionCall "merge"
          [.scopeTraversal ["var", "a"] ⟨6, 11⟩, .scopeTraversal ["var", "b"] ⟨13, 18⟩]
          ⟨0, 19⟩) =
      (StrategyReplace,
        .functionCall "merge"
          [.scopeTraversal ["var", "a"] ⟨6, 11⟩, .scopeTraversal ["var", "b"] ⟨13, 18⟩]
          ⟨0, 19⟩) :=
  C10_detectMergeStrategy.2.2.2 _ (by
    rintro ⟨name, a, r, h, _⟩
    simp at h)

/-! ## The resource index and the lookup of a patch target -/

theorem GoMap.get_store {β : Type} (m : List (String × β)) (key key' : String) (val : β) :
    GoMap.get (GoMap.store m key val) key' =
      if key = key' then some val else GoMap.get m key' := by
  by_cases h : key = key'
  · subst h
    simp [GoMap.get_store_same]
  · simp [h, GoMap.get_store_other _ _ _ _ h]

theorem indexBlock_Resources (hclFile : HCLFile) (pos : Nat) (block : Block) :
    (indexBlock hclFile pos block).Resources =
      if block.Type_ = "resource" then
        match block.Labels with
        | [l0, l1] => GoMap.store hclFile.Resources (ResourceKey l0 l1) ⟨l0, l1, pos⟩
        | _ => hclFile.Resources
      else hclFile.Resources := by
  unfold indexBlock
  split_ifs <;> (try split) <;> rfl

theorem indexBlock_WriteFile (hclFile : HCLFile) (pos : Nat) (block : Block) :
    (indexBlock hclFile pos block).WriteFile = hclFile.WriteFile := by
  unfold indexBlock
  split_ifs <;> (try split) <;> rfl

theorem indexBlocks_WriteFile (rest : List Block) :
    ∀ (hclFile : HCLFile) (pos : Nat),
      (indexBlocks hclFile pos rest).WriteFile = hclFile.WriteFile := by
  induction rest with
  | nil => intro hclFile pos; rfl
  | cons block tl ih =>
    intro hclFile pos
    rw [indexBlocks, ih, indexBlock_WriteFile]

theorem indexBlocks_sound (all : List Block) (rest : List Block) :
    ∀ (hclFile : HCLFile) (pos : Nat),
      (∀ i block, rest.get? i = some block → all.get? (pos + i) = some block) →
      ResourcesSound all hclFile.Resources →
      ResourcesSound all (indexBlocks hclFile pos rest).Resources := by
  induction rest with
  | nil => intro hclFile pos _ h; exact h
  | cons block tl ih =>
    intro hclFile pos hpos hsound
    rw [indexBlocks]
    apply ih
    · intro i b hb
      have := hpos (i + 1) b (by simpa using hb)
      rw [← this]
      congr 1
      omega
    · have hblock : all.get? pos = some block := by
        have := hpos 0 block (by simp)
        simpa using this
      intro key r hget
      rw [indexBlock_Resources] at hget
      by_cases hty : block.Type_ = "resource"
      · rw [if_pos hty] at hget
        split at hget
        · rename_i l0 l1 hlabels
          rw [GoMap.get_store] at hget
          by_cases hkey : ResourceKey l0 l1 = key
          · rw [if_pos hkey] at hget
            cases hget
            exact ⟨hkey.symm, block, hblock, hty, hlabels⟩
          · rw [if_neg hkey] at hget
            exact hsound key r hget
        · exact hsound key r hget
      · rw [if_neg hty] at hget
        exact hsound key r hget

theorem ParseHCLFile_sound (path : String) (src : Bytes) (writeFile : Body) :
    ResourcesSound (ParseHCLFile path src writeFile).WriteFile.Blocks
      (ParseHCLFile path src writeFile).Resources := by
  unfold ParseHCLFile
  rw [indexBlocks_WriteFile]
  apply indexBlocks_sound
  · intro i block h
    simpa using h
  · intro key r h
    simp [GoMap.get] at h

theorem findTargetResource_some (files : Files) :
    ∀ (resourceKey : String) (filePos : Nat) (r : Resource),
      findTargetResource files resourceKey = some (filePos, r) →
      ∃ entry, files.get? filePos = some entry ∧
        GoMap.get entry.2.Resources resourceKey = some r := by
  induction files with
  | nil => intro resourceKey filePos r h; simp [findTargetResource] at h
  | cons hd tl ih =>
    obtain ⟨path, file⟩ := hd
    intro resourceKey filePos r h
    simp only [findTargetResource] at h
    cases hget : GoMap.get file.Resources resourceKey with
    | some resource =>
      rw [hget] at h
      simp only [Option.some.injEq, Prod.mk.injEq] at h
      obtain ⟨hpos, hr⟩ := h
      subst hpos hr
      exact ⟨(path, file), rfl, hget⟩
    | none =>
      rw [hget] at h
      cases hrest : findTargetResource tl resourceKey with
      | none => rw [hrest] at h; simp at h
      | some found =>
        obtain ⟨pos', r'⟩ := found
        rw [hrest] at h
        simp only [Option.some.injEq, Prod.mk.injEq] at h
        obtain ⟨hpos, hr⟩ := h
        subst hpos hr
        obtain ⟨entry, hentry, hres⟩ := ih resourceKey pos' r' hrest
        exact ⟨entry, by simpa using hentry, hres⟩

theorem List.append_cons_inj_of_not_mem {α : Type} (a : α) :
    ∀ (l₁ l₂ r₁ r₂ : List α), a ∉ l₁ → a ∉ l₂ → l₁ ++ a :: r₁ = l₂ ++ a :: r₂ →
      l₁ = l₂ ∧ r₁ = r₂ := by
  intro l₁
  induction l₁ with
  | nil =>
    intro l₂ r₁ r₂ _ h₂ h
    cases l₂ with
    | nil => simpa using h
    | cons b l₂ =>
      simp only [List.nil_append, List.cons_append, List.cons.injEq] at h
      exact absurd (by simp [h.1]) h₂
  | cons b l₁ ih =>
    intro l₂ r₁ r₂ h₁ h₂ h
    cases l₂ with
    | nil =>
      simp only [List.nil_append, List.cons_append, List.cons.injEq] at h
      exact absurd (by simp [h.1]) h₁
    | cons c l₂ =>
      simp only [List.cons_append, List.cons.injEq] at h
      obtain ⟨hbc, htl⟩ := h
      have h₁' : a ∉ l₁ := fun hm => h₁ (List.mem_cons_of_mem _ hm)
      have h₂' : a ∉ l₂ := fun hm => h₂ (List.mem_cons_of_mem _ hm)
      obtain ⟨hl, hr⟩ := ih l₂ r₁ r₂ h₁' h₂' htl
      exact ⟨by rw [hbc, hl], hr⟩

theorem ResourceKey_injective_of_no_dot (t n t' n' : String)
    (ht : '.' ∉ t.data) (ht' : '.' ∉ t'.data)
    (h : ResourceKey t n = ResourceKey t' n') : t = t' ∧ n = n' := by
  have hdata : t.data ++ '.' :: n.data = t'.data ++ '.' :: n'.data := by
    have := congrArg String.data h
    simpa [ResourceKey, String.data_append] using this
  obtain ⟨h1, h2⟩ := List.append_cons_inj_of_not_mem '.' _ _ _ _ ht ht' hdata
  exact ⟨String.ext h1, String.ext h2⟩

/-- C7 (as amended): in a file set indexed by `ParseHCLFile`, the resource that
`applyPatch` selects for a patch on (T, N) is stored under the key `T.N`, its
own type and name form that same key, and it points at a `resource` block
labelled with its type and name; when neither T nor the selected type contains
a dot, the selected type is exactly T and the selected name exactly N. -/
theorem C7_lookup_by_resource_key (files : Files) (patch : Patch) (filePos : Nat)
    (r : Resource) (hindexed : files.Indexed)
    (hselected : findTargetResource files
      (ResourceKey patch.ResourceType patch.ResourceName) = some (filePos, r)) :
    ResourceKey r.Type_ r.Name = ResourceKey patch.ResourceType patch.ResourceName ∧
    (∃ block, files.blockAt filePos r.Block = some block ∧ block.Type_ = "resource" ∧
      block.Labels = [r.Type_, r.Name]) ∧
    ('.' ∉ patch.ResourceType.data → '.' ∉ r.Type_.data →
      r.Type_ = patch.ResourceType ∧ r.Name = patch.ResourceName) := by
  obtain ⟨entry, hentry, hres⟩ := findTargetResource_some files _ filePos r hselected
  have hmem : entry ∈ files := List.get?_mem hentry
  obtain ⟨src, writeFile, hparse⟩ := hindexed entry hmem
  have hsound := ParseHCLFile_sound entry.1 src writeFile
  rw [← hparse] at hsound
  obtain ⟨hkey, block, hblock, hty, hlabels⟩ := hsound _ r hres
  refine ⟨hkey.symm, ⟨block, ?_, hty, hlabels⟩, ?_⟩
  · simp only [Files.blockAt, hentry]
    exact hblock
  · intro hT hR
    exact ResourceKey_injective_of_no_dot _ _ _ _ hR hT hkey.symm

/-- Witness of C7 (as amended): the patch on `aws_instance.web` selects the
block `resource "aws_instance" "web"` and not `aws_instance.webserver`. -/
theorem C7_lookup_by_resource_key_witness :
    ResourceKey "aws_instance" "web" = ResourceKey "aws_instance" "web" ∧
    (∃ block,
      Files.blockAt
        [("main.tf", ParseHCLFile "main.tf" []
          (.mk [] [.mk "resource" ["aws_instance", "webserver"] (.mk [] []),
            .mk "resource" ["aws_instance", "web"] (.mk [] [])]))] 0 1 = some block ∧
      block.Type_ = "resource" ∧ block.Labels = ["aws_instance", "web"]) ∧
    ('.' ∉ "aws_instance".data → '.' ∉ "aws_instance".data →
      "aws_instance" = "aws_instance" ∧ "web" = "web") :=
  C7_lookup_by_resource_key
    [("main.tf", ParseHCLFile "main.tf" []
      (.mk [] [.mk "resource" ["aws_instance", "webserver"] (.mk [] []),
        .mk "resource" ["aws_instance", "web"] (.mk [] [])]))]
    { ResourceType := "aws_instance", ResourceName := "web", Attributes := [] }
    0 ⟨"aws_instance", "web", 1⟩
    (by
      intro entry hentry
      simp only [List.mem_singleton] at hentry
      subst hentry
      exact ⟨[], _, rfl⟩)
    (by decide)

/-- Counterexample to C7 as stated: the patch on type `aws_instance` and name
`web.server` selects the block `resource "aws_instance.web" "server"`, whose
type and name both differ from the patch's. -/
theorem C7_counterexample :
    findTargetResource
        [("main.tf", ParseHCLFile "main.tf" []
          (.mk [] [.mk "resource" ["aws_instance.web", "server"] (.mk [] [])]))]
        (ResourceKey "aws_instance" "web.server") =
      some (0, ⟨"aws_instance.web", "server", 0⟩) ∧
    "aws_instance.web" ≠ "aws_instance" ∧ "server" ≠ "web.server" := by
  refine ⟨by decide, by decide, by decide⟩

/-! ## Errors of `ApplyPatches` -/

theorem applyAttribute_eq (hcl : Hcl) (body : Body) (name : String)
    (patchAttr : PatchAttribute) :
    applyAttribute hcl body name patchAttr =
      match applyStrategy hcl (body.GetAttribute name) patchAttr with
      | .ok tokens => ((body.RemoveAttribute name).SetAttributeRaw name tokens, none)
      | .error failure => (body, some failure) := by
  unfold applyAttribute applyStrategy
  split_ifs
  · rfl
  · unfold mergeAttribute
    cases hget : body.GetAttribute name with
    | none => rfl
    | some tokens =>
      simp only
      cases DeepMerge (extractValue hcl tokens) patchAttr.Value <;> rfl
  · unfold appendAttribute
    cases hget : body.GetAttribute name with
    | none => rfl
    | some tokens =>
      simp only
      cases AppendToList (extractValue hcl tokens) patchAttr.Value <;> rfl
  · rfl

theorem findTargetResource_eq_none_iff (files : Files) (resourceKey : String) :
    findTargetResource files resourceKey = none ↔
      ∀ entry ∈ files, GoMap.get entry.2.Resources resourceKey = none := by
  induction files with
  | nil => simp [findTargetResource]
  | cons hd tl ih =>
    obtain ⟨path, file⟩ := hd
    simp only [findTargetResource, List.mem_cons, forall_eq_or_imp]
    cases hget : GoMap.get file.Resources resourceKey with
    | some resource => simp
    | none =>
      cases hrest : findTargetResource tl resourceKey with
      | none =>
        simp only [true_and, true_iff]
        exact ih.1 hrest
      | some found =>
        simp only [true_and]
        constructor
        · intro h
          cases h
        · intro hall
          rw [ih.2 hall] at hrest
          cases hrest

theorem List.map_modify_of_comp {α β : Type} (g : α → β) (f : α → α)
    (h : ∀ a, g (f a) = g a) : ∀ (n : Nat) (l : List α), (l.modify f n).map g = l.map g := by
  intro n l
  apply List.ext_getElem?
  intro i
  simp only [List.getElem?_map, List.getElem?_modify]
  cases l[i]? with
  | none => rfl
  | some a =>
    by_cases hn : n = i
    · simp [hn, h]
    · simp [hn]

theorem applyPatch_Resources (hcl : Hcl) (files : Files) (patch : Patch) :
    (applyPatch hcl files patch).1.map (fun entry => entry.2.Resources) =
      files.map (fun entry => entry.2.Resources) := by
  simp only [applyPatch]
  split
  · rfl
  · split
    · rfl
    · simp only [Files.setBlock]
      apply List.map_modify_of_comp
      intro a
      rfl

theorem absent_iff_of_Resources (files files' : Files) (resourceKey : String)
    (h : files'.map (fun entry => entry.2.Resources) =
      files.map (fun entry => entry.2.Resources)) :
    (∀ entry ∈ files', GoMap.get entry.2.Resources resourceKey = none) ↔
      (∀ entry ∈ files, GoMap.get entry.2.Resources resourceKey = none) := by
  have key : ∀ fs : Files, (∀ entry ∈ fs, GoMap.get entry.2.Resources resourceKey = none) ↔
      ∀ rs ∈ fs.map (fun entry => entry.2.Resources), GoMap.get rs resourceKey = none := by
    intro fs
    constructor
    · intro hall rs hrs
      obtain ⟨entry, hentry, rfl⟩ := List.mem_map.1 hrs
      exact hall entry hentry
    · intro hall entry hentry
      exact hall _ (List.mem_map.2 ⟨entry, hentry, rfl⟩)
  rw [key files', key files, h]

theorem applyAttributes_cons (hcl : Hcl) (body : Body) (attrName : String)
    (patchAttr : PatchAttribute) (rest : List (String × PatchAttribute)) :
    applyAttributes hcl body ((attrName, patchAttr) :: rest) =
      match applyStrategy hcl (body.GetAttribute attrName) patchAttr with
      | .ok tokens =>
        applyAttributes hcl ((body.RemoveAttribute attrName).SetAttributeRaw attrName tokens)
          rest
      | .error (.error err) =>
        (body, some (.error ("failed to apply attribute " ++ attrName ++ ": " ++ err)))
      | .error (.panic msg) => (body, some (.panic msg)) := by
  rw [applyAttributes, applyAttribute_eq]
  cases applyStrategy hcl (body.GetAttribute attrName) patchAttr with
  | ok tokens => rfl
  | error failure => cases failure <;> rfl

theorem applyStrategy_not_error_of_known (hcl : Hcl) (existing : Option Tokens)
    (patchAttr : PatchAttribute) (h : MergeStrategy.Known patchAttr.Strategy) (err : String) :
    applyStrategy hcl existing patchAttr ≠ .error (.error err) := by
  obtain ⟨value, strategy⟩ := patchAttr
  rcases h with h | h | h <;> simp only at h <;> subst h
  · simp [applyStrategy]
  · cases existing with
    | none => simp [applyStrategy, StrategyMerge, StrategyReplace]
    | some tokens =>
      cases hmerge : DeepMerge (extractValue hcl tokens) value <;>
        simp [applyStrategy, StrategyMerge, StrategyReplace, hmerge]
  · cases existing with
    | none => simp [applyStrategy, StrategyAppend, StrategyMerge, StrategyReplace]
    | some tokens =>
      cases happend : AppendToList (extractValue hcl tokens) value <;>
        simp [applyStrategy, StrategyAppend, StrategyMerge, StrategyReplace, happend]

theorem applyAttributes_not_error_of_known (hcl : Hcl)
    (attrs : List (String × PatchAttribute)) :
    ∀ (body : Body), (∀ attr ∈ attrs, MergeStrategy.Known attr.2.Strategy) →
      ∀ err, (applyAttributes hcl body attrs).2 ≠ some (.error err) := by
  induction attrs with
  | nil => intro body _ err h; cases h
  | cons hd tl ih =>
    obtain ⟨attrName, patchAttr⟩ := hd
    intro body hknown err
    have hhd := applyStrategy_not_error_of_known hcl (body.GetAttribute attrName) patchAttr
      (hknown (attrName, patchAttr) (List.mem_cons_self _ _))
    rw [applyAttributes_cons]
    cases hstrategy : applyStrategy hcl (body.GetAttribute attrName) patchAttr with
    | ok tokens =>
      exact ih _ (fun attr hattr => hknown attr (List.mem_cons_of_mem _ hattr)) err
    | error failure =>
      cases failure with
      | error e => exact absurd hstrategy (hhd e)
      | panic msg => intro h; cases h

theorem applyPatch_error_iff_of_known (hcl : Hcl) (files : Files) (patch : Patch)
    (hknown : ∀ attr ∈ patch.Attributes, MergeStrategy.Known attr.2.Strategy) :
    (∃ err, (applyPatch hcl files patch).2 = some (.error err)) ↔
      findTargetResource files
        (ResourceKey patch.ResourceType patch.ResourceName) = none := by
  simp only [applyPatch]
  cases hfind : findTargetResource files
      (ResourceKey patch.ResourceType patch.ResourceName) with
  | none => simp
  | some found =>
    obtain ⟨filePos, targetResource⟩ := found
    simp only
    cases hblock : files.blockAt filePos targetResource.Block with
    | none => simp
    | some block =>
      simp only [reduceCtorEq, iff_false, not_exists]
      intro err
      exact applyAttributes_not_error_of_known hcl patch.Attributes block.Body hknown err

/-- As long as no attribute crashes, and every attribute uses one of the three
strategies, `ApplyPatches` returns an error if and only if some patch of the
list has a resource key that is absent from the `Resources` index of every
file. -/
theorem applyPatches_error_iff_of_no_panic (hcl : Hcl) (patches : List Patch) :
    ∀ (files : Files),
      (∀ patch ∈ patches, ∀ attr ∈ patch.Attributes, MergeStrategy.Known attr.2.Strategy) →
      (∀ msg, (ApplyPatches hcl files patches).2 ≠ some (.panic msg)) →
      ((∃ err, (ApplyPatches hcl files patches).2 = some (.error err)) ↔
        ∃ patch ∈ patches, ∀ entry ∈ files,
          GoMap.get entry.2.Resources
            (ResourceKey patch.ResourceType patch.ResourceName) = none) := by
  unfold ApplyPatches
  induction patches with
  | nil => intro files _ _; simp [applyPatchLoop]
  | cons patch rest ih =>
    intro files hknown hpanic
    have hpatch := applyPatch_error_iff_of_known hcl files patch
      (hknown patch (List.mem_cons_self _ _))
    have hres := applyPatch_Resources hcl files patch
    rw [findTargetResource_eq_none_iff] at hpatch
    rw [applyPatchLoop] at hpanic ⊢
    cases happly : applyPatch hcl files patch with
    | mk files' failure =>
      rw [happly] at hpatch hres hpanic
      simp only at hpatch hres hpanic
      cases failure with
      | some f =>
        cases f with
        | error e =>
          simp only [Option.some.injEq, Failure.error.injEq, exists_eq', true_iff]
          exact ⟨patch, List.mem_cons_self _ _, hpatch.1 ⟨e, rfl⟩⟩
        | panic msg => exact absurd rfl (hpanic msg)
      | none =>
        simp only at hpanic ⊢
        rw [ih files' (fun p hp => hknown p (List.mem_cons_of_mem _ hp)) hpanic]
        have hfound : ¬ ∀ entry ∈ files, GoMap.get entry.2.Resources
            (ResourceKey patch.ResourceType patch.ResourceName) = none := by
          intro h
          obtain ⟨err, herr⟩ := hpatch.2 h
          cases herr
        constructor
        · rintro ⟨p, hp, habs⟩
          exact ⟨p, List.mem_cons_of_mem _ hp,
            (absent_iff_of_Resources files files' _ hres).1 habs⟩
        · rintro ⟨p, hp, habs⟩
          rcases List.mem_cons.1 hp with h | h
          · subst h
            exact absurd habs hfound
          · exact ⟨p, h, (absent_iff_of_Resources files files' _ hres).2 habs⟩

/-- C8 (the code at the failing input): with a first patch that merges the null
of an object type, as `tags = merge(false ? {a = 1} : null)` parses, onto an
object attribute, and a second patch whose resource is in no file,
`ApplyPatches` panics in the first patch and never returns the error for the
absent resource; every strategy is one of the three.  The second patch alone
returns that error. -/
theorem C8_applyPatches_panics_before_error :
    parsePatchBlock Hcl.literals
        ⟨"patch", ["aws_instance", "web"],
          [("tags", .functionCall "merge"
            [.otherExpr "conditional" (some (.nullOf (.object [("a", .number)]))) ⟨42, 64⟩]
            ⟨36, 65⟩)], ⟨0, 67⟩⟩ =
      .ok { ResourceType := "aws_instance", ResourceName := "web",
            Attributes := [("tags",
              ⟨.cty (.nullOf (.object [("a", .number)])), StrategyMerge⟩)],
            Range := ⟨0, 67⟩ } ∧
    (ApplyPatches Hcl.literals
      [("main.tf", ParseHCLFile "main.tf" []
        (.mk [] [.mk "resource" ["aws_instance", "web"]
          (.mk [("tags", .forValue (.object [("Name", .string "web")]))] [])]))]
      [{ ResourceType := "aws_instance", ResourceName := "web",
         Attributes := [("tags",
           ⟨.cty (.nullOf (.object [("a", .number)])), StrategyMerge⟩)] },
        { ResourceType := "aws_instance", ResourceName := "nonexistent",
          Attributes := [] }]).2 = some (.panic "value is null") ∧
    (∀ entry ∈
        [("main.tf", ParseHCLFile "main.tf" []
          (.mk [] [.mk "resource" ["aws_instance", "web"]
            (.mk [("tags", .forValue (.object [("Name", .string "web")]))] [])]))],
      GoMap.get entry.2.Resources (ResourceKey "aws_instance" "nonexistent") = none) ∧
    (ApplyPatches Hcl.literals
      [("main.tf", ParseHCLFile "main.tf" []
        (.mk [] [.mk "resource" ["aws_instance", "web"]
          (.mk [("tags", .forValue (.object [("Name", .string "web")]))] [])]))]
      [{ ResourceType := "aws_instance", ResourceName := "nonexistent",
         Attributes := [] }]).2 =
      some (.error ("failed to apply patch for aws_instance.nonexistent: " ++
        "resource aws_instance.nonexistent not found in any file")) := by
  refine ⟨rfl, rfl, ?_, by decide⟩
  intro entry hentry
  simp only [List.mem_singleton] at hentry
  subst hentry
  decide
/-! ## What a patch leaves untouched -/

theorem writeAttribute_frame (body : Body) (name : String) (tokens : Tokens) (n : String)
    (hn : name ≠ n) :
    ((body.RemoveAttribute name).SetAttributeRaw name tokens).GetAttribute n =
        body.GetAttribute n ∧
      ((body.RemoveAttribute name).SetAttributeRaw name tokens).Blocks = body.Blocks := by
  obtain ⟨attributes, blocks⟩ := body
  simp [Body.RemoveAttribute, Body.SetAttributeRaw, Body.GetAttribute, Body.attributes,
    Body.Blocks, GoMap.get_store_other _ _ _ _ hn, GoMap.get_delete_other _ _ _ hn]

theorem applyAttribute_body (hcl : Hcl) (body : Body) (name : String)
    (patchAttr : PatchAttribute) :
    (applyAttribute hcl body name patchAttr).1 = body ∨
      ∃ tokens, (applyAttribute hcl body name patchAttr).1 =
        (body.RemoveAttribute name).SetAttributeRaw name tokens := by
  rw [applyAttribute_eq]
  cases applyStrategy hcl (body.GetAttribute name) patchAttr with
  | ok tokens => exact Or.inr ⟨tokens, rfl⟩
  | error failure => exact Or.inl rfl

theorem applyAttribute_frame (hcl : Hcl) (body : Body) (name : String)
    (patchAttr : PatchAttribute) (n : String) (hn : name ≠ n) :
    (applyAttribute hcl body name patchAttr).1.GetAttribute n = body.GetAttribute n ∧
      (applyAttribute hcl body name patchAttr).1.Blocks = body.Blocks := by
  rcases applyAttribute_body hcl body name patchAttr with h | ⟨tokens, h⟩
  · rw [h]
    exact ⟨rfl, rfl⟩
  · rw [h]
    exact writeAttribute_frame body name tokens n hn

theorem applyAttribute_Blocks (hcl : Hcl) (body : Body) (name : String)
    (patchAttr : PatchAttribute) :
    (applyAttribute hcl body name patchAttr).1.Blocks = body.Blocks := by
  rcases applyAttribute_body hcl body name patchAttr with h | ⟨tokens, h⟩
  · rw [h]
  · rw [h]
    obtain ⟨attributes, blocks⟩ := body
    rfl

theorem applyAttributes_frame (hcl : Hcl) (attrs : List (String × PatchAttribute)) :
    ∀ (body : Body),
      (applyAttributes hcl body attrs).1.Blocks = body.Blocks ∧
      ∀ n, n ∉ GoMap.keys attrs →
        (applyAttributes hcl body attrs).1.GetAttribute n = body.GetAttribute n := by
  induction attrs with
  | nil => intro body; exact ⟨rfl, fun _ _ => rfl⟩
  | cons hd tl ih =>
    obtain ⟨attrName, patchAttr⟩ := hd
    intro body
    rw [applyAttributes]
    have hblocks := applyAttribute_Blocks hcl body attrName patchAttr
    have hframe := fun n hn => (applyAttribute_frame hcl body attrName patchAttr n hn).1
    cases hres : applyAttribute hcl body attrName patchAttr with
    | mk body' err =>
      rw [hres] at hblocks hframe
      simp only at hblocks hframe
      have hkeys : ∀ n, n ∉ GoMap.keys ((attrName, patchAttr) :: tl) →
          attrName ≠ n ∧ n ∉ GoMap.keys tl := by
        intro n hn
        simp only [GoMap.keys, List.map_cons, List.mem_cons, not_or] at hn
        exact ⟨fun e => hn.1 e.symm, hn.2⟩
      cases err with
      | some failure =>
        cases failure <;> exact ⟨hblocks, fun n hn => hframe n (hkeys n hn).1⟩
      | none =>
        obtain ⟨ihb, ihf⟩ := ih body'
        exact ⟨ihb.trans hblocks,
          fun n hn => (ihf n (hkeys n hn).2).trans (hframe n (hkeys n hn).1)⟩

theorem Files.blockAt_setBlock (files : Files) (i j : Nat) (b : Block) (i' j' : Nat) :
    (files.setBlock i j b).blockAt i' j' =
      if i = i' ∧ j = j' then (files.blockAt i' j').map (fun _ => b)
      else files.blockAt i' j' := by
  simp only [Files.blockAt, Files.setBlock, List.get?_eq_getElem?, List.getElem?_modify]
  cases hentry : files[i']? with
  | none => simp
  | some entry =>
    by_cases hi : i = i'
    · by_cases hj : j = j'
      · simp [hi, hj, HCLFile.setBlock, Body.Blocks, List.getElem?_set']
        rfl
      · simp [hi, hj, HCLFile.setBlock, Body.Blocks, List.getElem?_set_ne hj]
    · simp [hi]

theorem withBody_fields (block : Block) (body : Body) :
    (block.withBody body).Type_ = block.Type_ ∧ (block.withBody body).Labels = block.Labels ∧
      (block.withBody body).Body = body := by
  obtain ⟨typeName, labels, old⟩ := block
  exact ⟨rfl, rfl, rfl⟩

/-- C9: `applyPatch` changes nothing but attributes named in the patch on the
selected target block: the paths, indexes, top-level attributes and block counts
of all files stay as they were, every block other than the target is unchanged,
and the target keeps its type, labels, nested blocks and every attribute whose
name is not in the patch's attribute map. -/
theorem C9_applyPatch_frame (hcl : Hcl) (files : Files) (patch : Patch) :
    ((applyPatch hcl files patch).1.map (fun entry =>
        (entry.1, entry.2.Path, entry.2.OrigBytes, entry.2.Resources, entry.2.Variables,
          entry.2.Outputs, entry.2.Locals, entry.2.Data, entry.2.WriteFile.attributes,
          entry.2.WriteFile.Blocks.length)) =
      files.map (fun entry =>
        (entry.1, entry.2.Path, entry.2.OrigBytes, entry.2.Resources, entry.2.Variables,
          entry.2.Outputs, entry.2.Locals, entry.2.Data, entry.2.WriteFile.attributes,
          entry.2.WriteFile.Blocks.length))) ∧
    (∀ filePos blockPos,
      (¬ ∃ r, findTargetResource files
          (ResourceKey patch.ResourceType patch.ResourceName) = some (filePos, r) ∧
          r.Block = blockPos) →
      (applyPatch hcl files patch).1.blockAt filePos blockPos =
        files.blockAt filePos blockPos) ∧
    (∀ filePos r block,
      findTargetResource files
          (ResourceKey patch.ResourceType patch.ResourceName) = some (filePos, r) →
      files.blockAt filePos r.Block = some block →
      ∃ block', (applyPatch hcl files patch).1.blockAt filePos r.Block = some block' ∧
        block'.Type_ = block.Type_ ∧ block'.Labels = block.Labels ∧
        block'.Body.Blocks = block.Body.Blocks ∧
        ∀ n, n ∉ GoMap.keys patch.Attributes →
          block'.Body.GetAttribute n = block.Body.GetAttribute n) := by
  refine ⟨?_, ?_, ?_⟩
  · simp only [applyPatch]
    split
    · rfl
    · split
      · rfl
      · simp only [Files.setBlock]
        apply List.map_modify_of_comp
        intro a
        simp [HCLFile.setBlock, Body.attributes, Body.Blocks]
  · intro filePos blockPos hnot
    simp only [applyPatch]
    split
    · rfl
    · rename_i targetPos targetResource hfind
      split
      · rfl
      · simp only
        rw [Files.blockAt_setBlock]
        have hne : ¬ (targetPos = filePos ∧ targetResource.Block = blockPos) := by
          rintro ⟨h1, h2⟩
          subst h1
          exact hnot ⟨targetResource, hfind, h2⟩
        rw [if_neg hne]
  · intro filePos r block hfind hblock
    simp only [applyPatch, hfind, hblock]
    rw [Files.blockAt_setBlock, if_pos ⟨rfl, rfl⟩, hblock]
    obtain ⟨hb, hf⟩ := applyAttributes_frame hcl patch.Attributes block.Body
    obtain ⟨h1, h2, h3⟩ := withBody_fields block
      (applyAttributes hcl block.Body patch.Attributes).1
    refine ⟨_, rfl, h1, h2, ?_, ?_⟩
    · rw [h3]
      exact hb
    · intro n hn
      rw [h3]
      exact hf n hn

/-- Witness of C9: replacing `instance_type` on `aws_instance.web` keeps the
block's type, labels, nested blocks and its `ami` attribute. -/
theorem C9_applyPatch_frame_witness :
    ∃ block',
      (applyPatch Hcl.literals
        [("main.tf", ParseHCLFile "main.tf" []
          (.mk [] [.mk "resource" ["aws_instance", "web"]
            (.mk [("instance_type", .raw "\"t3.micro\""), ("ami", .raw "\"ami-123\"")]
              [])]))]
        { ResourceType := "aws_instance", ResourceName := "web",
          Attributes := [("instance_type", ⟨.cty (.string "t3.large"), StrategyReplace⟩)] }
        ).1.blockAt 0 0 = some block' ∧
      block'.Type_ = "resource" ∧ block'.Labels = ["aws_instance", "web"] ∧
      block'.Body.Blocks = [] ∧
      ∀ n, n ∉ GoMap.keys
          [("instance_type", (⟨.cty (.string "t3.large"), StrategyReplace⟩ : PatchAttribute))] →
        block'.Body.GetAttribute n =
          Body.GetAttribute
            (.mk [("instance_type", .raw "\"t3.micro\""), ("ami", .raw "\"ami-123\"")] [])
            n :=
  (C9_applyPatch_frame Hcl.literals
    [("main.tf", ParseHCLFile "main.tf" []
      (.mk [] [.mk "resource" ["aws_instance", "web"]
        (.mk [("instance_type", .raw "\"t3.micro\""), ("ami", .raw "\"ami-123\"")]
          [])]))]
    { ResourceType := "aws_instance", ResourceName := "web",
      Attributes := [("instance_type", ⟨.cty (.string "t3.large"), StrategyReplace⟩)] }
    ).2.2 0 ⟨"aws_instance", "web", 0⟩
    (.mk "resource" ["aws_instance", "web"]
      (.mk [("instance_type", .raw "\"t3.micro\""), ("ami", .raw "\"ami-123\"")] []))
    (by decide) rfl

/-! ## Parsing overlay files -/

theorem parsePatchAttributes_target (hcl : Hcl) (attrs : List (String × Expr)) :
    ∀ (patch patch' : Patch), parsePatchAttributes hcl patch attrs = .ok patch' →
      patch'.ResourceType = patch.ResourceType ∧
      patch'.ResourceName = patch.ResourceName := by
  induction attrs with
  | nil =>
    intro patch patch' h
    simp only [parsePatchAttributes, Except.ok.injEq] at h
    subst h
    exact ⟨rfl, rfl⟩
  | cons hd tl ih =>
    obtain ⟨name, expr⟩ := hd
    intro patch patch' h
    rw [parsePatchAttributes] at h
    by_cases hname : name = "source"
    · rw [if_pos hname] at h
      cases hval : hcl.Value expr with
      | none => simp only [hval] at h; cases h
      | some val =>
        cases hstr : val.AsString with
        | none => simp only [hval, hstr] at h; cases h
        | some source =>
          simp only [hval, hstr] at h
          have hrest := ih _ _ h
          exact hrest
    · rw [if_neg hname] at h
      cases hd : detectMergeStrategy expr with
      | mk strategy value =>
        simp only [hd] at h
        have hrest := ih _ _ h
        exact hrest

theorem parsePatchAttributes_total (hcl : Hcl) (attrs : List (String × Expr)) :
    ∀ (patch : Patch),
      (∀ attr ∈ attrs, attr.1 = "source" → ∃ s, hcl.Value attr.2 = some (.string s)) →
      ∃ patch', parsePatchAttributes hcl patch attrs = .ok patch' := by
  induction attrs with
  | nil => intro patch _; exact ⟨patch, rfl⟩
  | cons hd tl ih =>
    obtain ⟨name, expr⟩ := hd
    intro patch hwf
    have htl : ∀ attr ∈ tl, attr.1 = "source" → ∃ s, hcl.Value attr.2 = some (.string s) :=
      fun attr hattr => hwf attr (List.mem_cons_of_mem _ hattr)
    rw [parsePatchAttributes]
    by_cases hname : name = "source"
    · rw [if_pos hname]
      obtain ⟨s, hs⟩ := hwf (name, expr) (List.mem_cons_self _ _) hname
      simp only at hs
      simp only [hs, Value.AsString]
      exact ih _ htl
    · rw [if_neg hname]
      cases hd : detectMergeStrategy expr with
      | mk strategy value =>
        simp only
        exact ih _ htl

theorem parsePatchBlocks_ok (hcl : Hcl) (blocks : List SyntaxBlock) :
    ∀ (patches : List Patch),
      (∀ block ∈ blocks, block.Type_ = "patch" → ∃ patch, parsePatchBlock hcl block = .ok patch) →
      ∃ out, parsePatchBlocks hcl patches blocks = .ok out ∧
        out.map (fun patch => (Except.ok patch : Except Failure Patch)) =
          patches.map (fun patch => (Except.ok patch : Except Failure Patch)) ++
            (blocks.filter (fun block => block.Type_ = "patch")).map (parsePatchBlock hcl) := by
  induction blocks with
  | nil => intro patches _; exact ⟨patches, rfl, by simp⟩
  | cons block rest ih =>
    intro patches hok
    have hrest : ∀ b ∈ rest, b.Type_ = "patch" → ∃ patch, parsePatchBlock hcl b = .ok patch :=
      fun b hb => hok b (List.mem_cons_of_mem _ hb)
    rw [parsePatchBlocks]
    by_cases hty : block.Type_ = "patch"
    · rw [if_pos hty]
      obtain ⟨patch, hpatch⟩ := hok block (List.mem_cons_self _ _) hty
      rw [hpatch]
      obtain ⟨out, hout, hmap⟩ := ih (patches ++ [patch]) hrest
      refine ⟨out, hout, ?_⟩
      rw [hmap]
      simp [List.filter_cons, hty, hpatch]
    · rw [if_neg hty]
      obtain ⟨out, hout, hmap⟩ := ih patches hrest
      refine ⟨out, hout, ?_⟩
      rw [hmap]
      simp [List.filter_cons, hty]

/-- C11: `parsePatchBlock` fails on a block whose label count is not 2; on a
block with two labels whose `source` attribute, if any, evaluates to a string
it yields a Patch with the first label as ResourceType and the second as
ResourceName; `ParseKungfuFile` returns the Patches of the top-level `patch`
blocks, one per block and in source order. -/
theorem C11_parse_patch_blocks (hcl : Hcl) :
    (∀ block : SyntaxBlock, block.Labels.length ≠ 2 →
      ∃ msg, parsePatchBlock hcl block = .error (.error msg)) ∧
    (∀ (block : SyntaxBlock) (l0 l1 : String), block.Labels = [l0, l1] →
      (∀ attr ∈ block.Attributes, attr.1 = "source" →
        ∃ s, hcl.Value attr.2 = some (.string s)) →
      ∃ patch, parsePatchBlock hcl block = .ok patch ∧
        patch.ResourceType = l0 ∧ patch.ResourceName = l1) ∧
    (∀ (block : SyntaxBlock) (patch : Patch), parsePatchBlock hcl block = .ok patch →
      block.Labels = [patch.ResourceType, patch.ResourceName]) ∧
    (∀ blocks : List SyntaxBlock,
      (∀ block ∈ blocks, block.Type_ = "patch" →
        ∃ patch, parsePatchBlock hcl block = .ok patch) →
      ∃ config, ParseKungfuFile hcl blocks = .ok config ∧
        config.Patches.map (fun patch => (Except.ok patch : Except Failure Patch)) =
          (blocks.filter (fun block => block.Type_ = "patch")).map (parsePatchBlock hcl)) := by
  refine ⟨?_, ?_, ?_, ?_⟩
  · intro block hlen
    simp only [parsePatchBlock, expectedPatchLabels]
    rw [if_pos hlen]
    exact ⟨_, rfl⟩
  · intro block l0 l1 hlabels hwf
    simp only [parsePatchBlock, expectedPatchLabels, hlabels]
    simp only [List.length_cons, List.length_nil, ne_eq, not_true_eq_false, if_false]
    obtain ⟨patch, hpatch⟩ := parsePatchAttributes_total hcl block.Attributes
      { ResourceType := [l0, l1].getD 0 "", ResourceName := [l0, l1].getD 1 "",
        Attributes := [], Range := block.Range } hwf
    obtain ⟨h1, h2⟩ := parsePatchAttributes_target hcl _ _ _ hpatch
    exact ⟨patch, hpatch, h1, h2⟩
  · intro block patch h
    simp only [parsePatchBlock, expectedPatchLabels] at h
    by_cases hlen : block.Labels.length ≠ 2
    · rw [if_pos hlen] at h
      cases h
    · rw [if_neg hlen] at h
      obtain ⟨h1, h2⟩ := parsePatchAttributes_target hcl _ _ _ h
      simp only at h1 h2
      rw [h1, h2]
      match hl : block.Labels with
      | [a, b] => rfl
      | [] => simp [hl] at hlen
      | [_] => simp [hl] at hlen
      | _ :: _ :: _ :: _ => simp [hl] at hlen
  · intro blocks hok
    obtain ⟨out, hout, hmap⟩ := parsePatchBlocks_ok hcl blocks [] hok
    refine ⟨⟨out⟩, ?_, ?_⟩
    · simp only [ParseKungfuFile, hout]
    · simpa using hmap

/-- Witness of C11 on the overlay of `TestParseKungfuFile_ResourceLabels`. -/
theorem C11_parse_patch_blocks_witness :
    ∃ patch, parsePatchBlock Hcl.literals
        ⟨"patch", ["aws_s3_bucket", "data"],
          [("versioning", .literalValue (.bool true) ⟨44, 48⟩)], ⟨0, 50⟩⟩ = .ok patch ∧
      patch.ResourceType = "aws_s3_bucket" ∧ patch.ResourceName = "data" :=
  (C11_parse_patch_blocks Hcl.literals).2.1
    ⟨"patch", ["aws_s3_bucket", "data"],
      [("versioning", .literalValue (.bool true) ⟨44, 48⟩)], ⟨0, 50⟩⟩
    "aws_s3_bucket" "data" rfl
    (by
      intro attr hattr hname
      simp only [List.mem_singleton] at hattr
      subst hattr
      simp at hname)

/-- C12 (the code at the failing input): a `source` attribute that evaluates to
a number, a bool or null makes `parsePatchBlock` panic in `AsString` instead of
returning a parse error; a `source` that cannot be evaluated gives an error, and
a string `source` becomes the Patch's Source and stays out of its attributes. -/
theorem C12_source_not_string_panics :
    parsePatchBlock Hcl.literals
        ⟨"patch", ["aws_instance", "web"],
          [("source", .literalValue (.number 5) ⟨40, 41⟩)], ⟨0, 43⟩⟩ =
      .error (.panic "not a string") ∧
    parsePatchBlock Hcl.literals
        ⟨"patch", ["aws_instance", "web"],
          [("source", .literalValue (.bool true) ⟨40, 44⟩)], ⟨0, 46⟩⟩ =
      .error (.panic "not a string") ∧
    parsePatchBlock Hcl.literals
        ⟨"patch", ["aws_instance", "web"],
          [("source", .literalValue .null ⟨40, 44⟩)], ⟨0, 46⟩⟩ =
      .error (.panic "not a string") ∧
    parsePatchBlock Hcl.literals
        ⟨"patch", ["aws_instance", "web"],
          [("source", .scopeTraversal ["var", "src"] ⟨40, 47⟩)], ⟨0, 49⟩⟩ =
      .error (.error "failed to evaluate source attribute") ∧
    parsePatchBlock Hcl.literals
        ⟨"patch", ["aws_instance", "web"],
          [("source", .literalValue (.string "./modules/web") ⟨40, 55⟩)], ⟨0, 57⟩⟩ =
      .ok { ResourceType := "aws_instance", ResourceName := "web",
            Source := "./modules/web", Attributes := [], Range := ⟨0, 57⟩ } :=
  ⟨rfl, rfl, rfl, rfl, rfl⟩

theorem Range.SliceBytes_nil (r : Range) : r.SliceBytes [] = [] := by
  simp [Range.SliceBytes]

/-- C13 (the code at the failing input): the parser retains `var.size` as the
attribute's value, but `valueToTokens` slices the expression's range out of an
empty byte slice, so for every expression the right-hand side written is the
empty string literal, not the expression's source text. -/
theorem C13_unevaluated_expression_written_empty :
    parsePatchBlock Hcl.literals
        ⟨"patch", ["aws_instance", "web"],
          [("instance_type", .scopeTraversal ["var", "size"] ⟨46, 54⟩)], ⟨0, 56⟩⟩ =
      .ok { ResourceType := "aws_instance", ResourceName := "web",
            Attributes := [("instance_type",
              ⟨.expression (.scopeTraversal ["var", "size"] ⟨46, 54⟩), StrategyReplace⟩)],
            Range := ⟨0, 56⟩ } ∧
    (∀ e : Expr, valueToTokens (.expression e) = .forValue (.string "")) ∧
    (applyAttribute Hcl.literals (.mk [("instance_type", .raw "\"t3.micro\"")] [])
        "instance_type"
        ⟨.expression (.scopeTraversal ["var", "size"] ⟨46, 54⟩), StrategyReplace⟩
      ).1.GetAttribute "instance_type" = some (.forValue (.string "")) := by
  refine ⟨rfl, ?_, rfl⟩
  intro e
  simp [valueToTokens, Range.SliceBytes_nil]

/-! ## The resource index of a parsed file -/

theorem GoMap.keys_store {β : Type} (m : List (String × β)) (key : String) (val : β) :
    GoMap.keys (GoMap.store m key val) =
      match GoMap.get m key with
      | none => GoMap.keys m ++ [key]
      | some _ => GoMap.keys m := by
  induction m with
  | nil => simp [GoMap.store, GoMap.get, GoMap.keys]
  | cons hd tl ih =>
    obtain ⟨k, v⟩ := hd
    by_cases hk : k = key
    · simp [GoMap.store, GoMap.get, GoMap.keys, hk]
    · simp only [GoMap.store, GoMap.get, hk, if_false]
      simp only [GoMap.keys, List.map_cons] at ih ⊢
      rw [ih]
      cases GoMap.get tl key <;> simp

theorem GoMap.NodupKeys_store {β : Type} (m : List (String × β)) (key : String) (val : β)
    (h : GoMap.NodupKeys m) : GoMap.NodupKeys (GoMap.store m key val) := by
  unfold GoMap.NodupKeys at h ⊢
  rw [GoMap.keys_store]
  cases hget : GoMap.get m key with
  | none =>
    simp only
    have hnot : key ∉ GoMap.keys m := (GoMap.get_eq_none_iff m key).1 hget
    exact List.Nodup.append h (List.nodup_singleton key)
      (fun k hk hk' => hnot (by rw [List.mem_singleton] at hk'; rw [← hk']; exact hk))
  | some old =>
    simp only
    exact h

theorem indexBlock_Resources_of_key (hclFile : HCLFile) (pos : Nat) (block : Block) :
    (resourceKeyOf block = none ∧ (indexBlock hclFile pos block).Resources = hclFile.Resources) ∨
    ∃ l0 l1, block.Type_ = "resource" ∧ block.Labels = [l0, l1] ∧
      resourceKeyOf block = some (ResourceKey l0 l1) ∧
      (indexBlock hclFile pos block).Resources =
        GoMap.store hclFile.Resources (ResourceKey l0 l1) ⟨l0, l1, pos⟩ := by
  rw [indexBlock_Resources]
  unfold resourceKeyOf
  by_cases hty : block.Type_ = "resource"
  · rw [if_pos hty, if_pos hty]
    rcases hl : block.Labels with _ | ⟨l0, _ | ⟨l1, _ | ⟨l2, tl⟩⟩⟩
    · exact Or.inl ⟨rfl, rfl⟩
    · exact Or.inl ⟨rfl, rfl⟩
    · exact Or.inr ⟨l0, l1, hty, rfl, rfl, rfl⟩
    · exact Or.inl ⟨rfl, rfl⟩
  · rw [if_neg hty, if_neg hty]
    exact Or.inl ⟨rfl, rfl⟩

theorem indexBlock_indexed (all : List Block) (hclFile : HCLFile) (pos : Nat) (block : Block)
    (hblock : all.get? pos = some block)
    (hinv : ResourcesIndexed all pos hclFile.Resources) :
    ResourcesIndexed all (pos + 1) (indexBlock hclFile pos block).Resources := by
  obtain ⟨hnodup, hnone, hsome⟩ := hinv
  have hlt : ∀ i, i < pos + 1 → i < pos ∨ i = pos := fun i hi => by omega
  rcases indexBlock_Resources_of_key hclFile pos block with ⟨hkey, hres⟩ |
    ⟨l0, l1, hty, hlabels, hkey, hres⟩
  · rw [hres]
    refine ⟨hnodup, ?_, ?_⟩
    · intro key
      rw [hnone key]
      constructor
      · intro h i b hi hb
        rcases hlt i hi with hi' | hi'
        · exact h i b hi' hb
        · subst hi'
          rw [hblock] at hb
          cases hb
          rw [hkey]
          simp
      · intro h i b hi hb
        exact h i b (by omega) hb
    · intro key r hget
      obtain ⟨hpos, b, hb, hbty, hblabels, hbkey, hlater⟩ := hsome key r hget
      refine ⟨by omega, b, hb, hbty, hblabels, hbkey, ?_⟩
      intro later b' h1 h2 hb'
      rcases hlt later h2 with h2' | h2'
      · exact hlater later b' h1 h2' hb'
      · subst h2'
        rw [hblock] at hb'
        cases hb'
        rw [hkey]
        simp
  · rw [hres]
    refine ⟨GoMap.NodupKeys_store _ _ _ hnodup, ?_, ?_⟩
    · intro key
      rw [GoMap.get_store]
      by_cases hk : ResourceKey l0 l1 = key
      · rw [if_pos hk]
        constructor
        · intro h
          cases h
        · intro h
          exact absurd (hk ▸ hkey) (h pos block (by omega) hblock)
      · rw [if_neg hk, hnone key]
        constructor
        · intro h i b hi hb
          rcases hlt i hi with hi' | hi'
          · exact h i b hi' hb
          · subst hi'
            rw [hblock] at hb
            cases hb
            rw [hkey]
            intro heq
            exact hk (Option.some.inj heq)
        · intro h i b hi hb
          exact h i b (by omega) hb
    · intro key r hget
      rw [GoMap.get_store] at hget
      by_cases hk : ResourceKey l0 l1 = key
      · rw [if_pos hk] at hget
        cases hget
        refine ⟨by simp, block, hblock, hty, hlabels, hk ▸ hkey, ?_⟩
        intro later b' h1 h2 _
        simp only at h1
        omega
      · rw [if_neg hk] at hget
        obtain ⟨hpos, b, hb, hbty, hblabels, hbkey, hlater⟩ := hsome key r hget
        refine ⟨by omega, b, hb, hbty, hblabels, hbkey, ?_⟩
        intro later b' h1 h2 hb'
        rcases hlt later h2 with h2' | h2'
        · exact hlater later b' h1 h2' hb'
        · subst h2'
          rw [hblock] at hb'
          cases hb'
          rw [hkey]
          intro heq
          exact hk (Option.some.inj heq)

theorem indexBlocks_indexed (all : List Block) (rest : List Block) :
    ∀ (hclFile : HCLFile) (pos : Nat),
      (∀ i block, rest.get? i = some block → all.get? (pos + i) = some block) →
      ResourcesIndexed all pos hclFile.Resources →
      ResourcesIndexed all (pos + rest.length) (indexBlocks hclFile pos rest).Resources := by
  induction rest with
  | nil => intro hclFile pos _ h; exact h
  | cons block tl ih =>
    intro hclFile pos hpos hinv
    rw [indexBlocks]
    have hblock : all.get? pos = some block := by
      have := hpos 0 block (by simp)
      simpa using this
    have hstep := indexBlock_indexed all hclFile pos block hblock hinv
    have htl := ih (indexBlock hclFile pos block) (pos + 1)
      (by
        intro i b hb
        have := hpos (i + 1) b (by simpa using hb)
        rw [← this]
        congr 1
        omega)
      hstep
    have hlen : pos + 1 + tl.length = pos + (block :: tl).length := by
      simp only [List.length_cons]
      omega
    rw [← hlen]
    exact htl

theorem ParseHCLFile_indexed (path : String) (src : Bytes) (writeFile : Body) :
    ResourcesIndexed writeFile.Blocks writeFile.Blocks.length
      (ParseHCLFile path src writeFile).Resources := by
  unfold ParseHCLFile
  have h := indexBlocks_indexed writeFile.Blocks writeFile.Blocks
    { Path := path, OrigBytes := src, WriteFile := writeFile,
      Resources := [], Variables := [], Outputs := [], Locals := [], Data := [] }
    0 (by intro i block h; simpa using h)
    ⟨by simp [GoMap.NodupKeys, GoMap.keys], by
      intro key
      simp [GoMap.get], by
      intro key r h
      simp [GoMap.get] at h⟩
  simpa using h

/-- C14 (as amended): the `Resources` index built by `ParseHCLFile` has no
repeated key, its keys are exactly the strings type + "." + name of the
top-level `resource` blocks with exactly two labels, and each key maps to the
last such block with that key in file order, recorded with that block's type
and name. -/
theorem C14_resources_index (path : String) (src : Bytes) (writeFile : Body) :
    GoMap.NodupKeys (ParseHCLFile path src writeFile).Resources ∧
    (∀ key, key ∈ GoMap.keys (ParseHCLFile path src writeFile).Resources ↔
      ∃ block ∈ writeFile.Blocks, resourceKeyOf block = some key) ∧
    (∀ key r, GoMap.get (ParseHCLFile path src writeFile).Resources key = some r →
      ∃ block, writeFile.Blocks.get? r.Block = some block ∧ block.Type_ = "resource" ∧
        block.Labels = [r.Type_, r.Name] ∧ key = ResourceKey r.Type_ r.Name ∧
        ∀ later block', r.Block < later → writeFile.Blocks.get? later = some block' →
          resourceKeyOf block' ≠ some key) := by
  obtain ⟨hnodup, hnone, hsome⟩ := ParseHCLFile_indexed path src writeFile
  refine ⟨hnodup, ?_, ?_⟩
  · intro key
    constructor
    · intro hmem
      by_contra hno
      have hget : GoMap.get (ParseHCLFile path src writeFile).Resources key = none := by
        rw [hnone key]
        intro i block _ hblock hkey
        exact hno ⟨block, List.get?_mem hblock, hkey⟩
      exact (GoMap.get_eq_none_iff _ key).1 hget hmem
    · rintro ⟨block, hblock, hkey⟩ 
      by_contra hmem
      have hget := (GoMap.get_eq_none_iff _ key).2 hmem
      obtain ⟨i, hi⟩ := List.get?_of_mem hblock
      have hlt : i < writeFile.Blocks.length := by
        by_contra hge
        rw [List.get?_eq_none.2 (by omega)] at hi
        cases hi
      exact (hnone key).1 hget i block hlt hi hkey
  · intro key r hget
    obtain ⟨_, block, hblock, hty, hlabels, hkey, hlater⟩ := hsome key r hget
    refine ⟨block, hblock, hty, hlabels, ?_, ?_⟩
    · simp only [resourceKeyOf, hty, hlabels, if_true, Option.some.injEq] at hkey
      exact hkey.symm
    · intro later block' h1 hb'
      have hlt : later < writeFile.Blocks.length := by
        by_contra hge
        rw [List.get?_eq_none.2 (by omega)] at hb'
        cases hb'
      exact hlater later block' h1 hlt hb'

/-- Witness of C14 (as amended), on a file with two `aws_instance.web` blocks:
the entry points at a `resource` block labelled with the entry's type and
name. -/
theorem C14_resources_index_witness :
    ∃ block,
      List.get?
        [Block.mk "resource" ["aws_instance", "web"] (.mk [("ami", .raw "\"first\"")] []),
          Block.mk "resource" ["aws_instance", "web"] (.mk [("ami", .raw "\"second\"")] [])]
        1 = some block ∧
      block.Type_ = "resource" ∧ block.Labels = ["aws_instance", "web"] ∧
      "aws_instance.web" = ResourceKey "aws_instance" "web" ∧
      ∀ later block', 1 < later →
        List.get?
          [Block.mk "resource" ["aws_instance", "web"] (.mk [("ami", .raw "\"first\"")] []),
            Block.mk "resource" ["aws_instance", "web"] (.mk [("ami", .raw "\"second\"")] [])]
          later = some block' →
        resourceKeyOf block' ≠ some "aws_instance.web" :=
  (C14_resources_index "main.tf" []
    (.mk []
      [.mk "resource" ["aws_instance", "web"] (.mk [("ami", .raw "\"first\"")] []),
        .mk "resource" ["aws_instance", "web"] (.mk [("ami", .raw "\"second\"")] [])])
    ).2.2 "aws_instance.web" ⟨"aws_instance", "web", 1⟩ (by decide)

/-- Counterexample to C14 as stated: with two `resource "aws_instance" "web"`
blocks in a file, the index entry points at the second block (position 1),
although the first block with that type and name is at position 0. -/
theorem C14_counterexample :
    GoMap.get
        (ParseHCLFile "main.tf" []
          (.mk []
            [.mk "resource" ["aws_instance", "web"] (.mk [("ami", .raw "\"first\"")] []),
              .mk "resource" ["aws_instance", "web"] (.mk [("ami", .raw "\"second\"")] [])])
          ).Resources "aws_instance.web" =
      some ⟨"aws_instance", "web", 1⟩ ∧
    (Body.Blocks (.mk []
        [.mk "resource" ["aws_instance", "web"] (.mk [("ami", .raw "\"first\"")] []),
          .mk "resource" ["aws_instance", "web"] (.mk [("ami", .raw "\"second\"")] [])])
      ).get? 0 =
      some (.mk "resource" ["aws_instance", "web"] (.mk [("ami", .raw "\"first\"")] [])) ∧
    (1 : Nat) ≠ 0 :=
  ⟨by decide, rfl, by decide⟩

/-! ## The runner: selecting modules, stopping on failure -/

theorem findModuleBySource_some (modules : List ModuleCall) (source : String) :
    ∀ module, findModuleBySource modules source = some module →
      module.Source = source ∧
      ∃ before after, modules = before ++ module :: after ∧
        ∀ m ∈ before, m.Source ≠ source := by
  induction modules with
  | nil => intro module h; simp [findModuleBySource] at h
  | cons hd tl ih =>
    intro module h
    rw [findModuleBySource] at h
    by_cases hsrc : hd.Source = source
    · rw [if_pos hsrc] at h
      cases h
      exact ⟨hsrc, [], tl, rfl, by simp⟩
    · rw [if_neg hsrc] at h
      obtain ⟨h1, before, after, h2, h3⟩ := ih module h
      refine ⟨h1, hd :: before, after, by rw [h2]; rfl, ?_⟩
      intro m hm
      rcases List.mem_cons.1 hm with hm' | hm'
      · rw [hm']; exact hsrc
      · exact h3 m hm'

theorem findModuleBySource_eq_none_iff (modules : List ModuleCall) (source : String) :
    findModuleBySource modules source = none ↔ ∀ m ∈ modules, m.Source ≠ source := by
  induction modules with
  | nil => simp [findModuleBySource]
  | cons hd tl ih =>
    rw [findModuleBySource]
    by_cases hsrc : hd.Source = source
    · simp [hsrc]
    · simp [hsrc, ih]

theorem applyPatchesToModules_cons (hcl : Hcl) (store : ModuleStore)
    (modules : List ModuleCall) (written : Written) (source : String) (patches : List Patch)
    (rest : List (String × List Patch)) :
    applyPatchesToModules hcl store modules written ((source, patches) :: rest) =
      match findModuleBySource modules source with
      | none => applyPatchesToModules hcl store modules written rest
      | some module =>
        match patchSingleModule hcl store written module patches with
        | (written', some err) => (written', some err)
        | (written', none) => applyPatchesToModules hcl store modules written' rest := by
  rw [applyPatchesToModules]

theorem applyPatchesToModules_append (hcl : Hcl) (store : ModuleStore)
    (modules : List ModuleCall) (before after : List (String × List Patch)) :
    ∀ written : Written,
      applyPatchesToModules hcl store modules written (before ++ after) =
        match applyPatchesToModules hcl store modules written before with
        | (written', some err) => (written', some err)
        | (written', none) => applyPatchesToModules hcl store modules written' after := by
  induction before with
  | nil => intro written; rfl
  | cons hd tl ih =>
    obtain ⟨source, patches⟩ := hd
    intro written
    rw [List.cons_append, applyPatchesToModules_cons, applyPatchesToModules_cons]
    cases findModuleBySource modules source with
    | none => exact ih written
    | some module =>
      simp only
      cases hres : patchSingleModule hcl store written module patches with
      | mk written' err =>
        cases err with
        | some e => rfl
        | none => exact ih written'

theorem patchSingleModule_written (hcl : Hcl) (store : ModuleStore) (written : Written)
    (module : ModuleCall) (patches : List Patch) :
    (patchSingleModule hcl store written module patches).1 = written ∨
      ∃ patchedFiles, (patchSingleModule hcl store written module patches).1 =
        written ++ [(module.Name, patchedFiles)] := by
  unfold patchSingleModule
  cases store.parseModuleFiles module with
  | error err => exact Or.inl rfl
  | ok parsedFiles =>
    simp only
    cases hres : ApplyPatches hcl parsedFiles patches with
    | mk patchedFiles err =>
      cases err with
      | none => exact Or.inr ⟨patchedFiles, rfl⟩
      | some failure => cases failure <;> exact Or.inl rfl

/-- C15 (as amended): in a run of `applyPatchesToModules`, a patch set with
source filter `s` that the run reaches is applied to the first discovered module
call whose declared source is exactly the string `s`, with no normalization, and
writes for that module only; when no module call has declared source `s` the
patch set is skipped and the run goes on; when an earlier patch set has failed
the run has ended and the patch set is applied to no module. -/
theorem C15_module_selected_by_declared_source (hcl : Hcl) (store : ModuleStore)
    (modules : List ModuleCall) (written : Written)
    (before : List (String × List Patch)) (source : String) (patches : List Patch)
    (rest : List (String × List Patch)) :
    (∀ reached, applyPatchesToModules hcl store modules written before = (reached, none) →
      (∀ module, findModuleBySource modules source = some module →
        module.Source = source ∧
        (∃ earlier later, modules = earlier ++ module :: later ∧
          ∀ m ∈ earlier, m.Source ≠ source) ∧
        applyPatchesToModules hcl store modules written
            (before ++ (source, patches) :: rest) =
          (match patchSingleModule hcl store reached module patches with
          | (written', some err) => (written', some err)
          | (written', none) => applyPatchesToModules hcl store modules written' rest) ∧
        ((patchSingleModule hcl store reached module patches).1 = reached ∨
          ∃ patchedFiles, (patchSingleModule hcl store reached module patches).1 =
            reached ++ [(module.Name, patchedFiles)])) ∧
      ((∃ m ∈ modules, m.Source = source) →
        ∃ module, findModuleBySource modules source = some module) ∧
      ((∀ m ∈ modules, m.Source ≠ source) →
        applyPatchesToModules hcl store modules written
            (before ++ (source, patches) :: rest) =
          applyPatchesToModules hcl store modules reached rest)) ∧
    (∀ reached err,
      applyPatchesToModules hcl store modules written before = (reached, some err) →
      applyPatchesToModules hcl store modules written
          (before ++ (source, patches) :: rest) = (reached, some err)) := by
  constructor
  · intro reached hbefore
    have hrun : applyPatchesToModules hcl store modules written
          (before ++ (source, patches) :: rest) =
        applyPatchesToModules hcl store modules reached ((source, patches) :: rest) := by
      rw [applyPatchesToModules_append, hbefore]
    refine ⟨?_, ?_, ?_⟩
    · intro module h
      obtain ⟨h1, h2⟩ := findModuleBySource_some modules source module h
      refine ⟨h1, h2, ?_, patchSingleModule_written hcl store reached module patches⟩
      rw [hrun, applyPatchesToModules_cons, h]
    · rintro ⟨m, hm, hsrc⟩
      cases hfind : findModuleBySource modules source with
      | some module => exact ⟨module, rfl⟩
      | none =>
        exact absurd hsrc ((findModuleBySource_eq_none_iff modules source).1 hfind m hm)
    · intro hnone
      have hfind := (findModuleBySource_eq_none_iff modules source).2 hnone
      rw [hrun, applyPatchesToModules_cons, hfind]
  · intro reached err hbefore
    rw [applyPatchesToModules_append, hbefore]

/-- Witness of C15 (as amended): after the patch set of `./modules/app` has been
applied, the patch set for `./modules/network` goes to the module `net`, the
first one declared with exactly that source, and writes for `net` only. -/
theorem C15_module_selected_by_declared_source_witness :
    (applyPatchesToModules Hcl.literals ModuleStore.single
        [⟨"app", "./modules/app", "/work/modules/app"⟩,
          ⟨"net", "./modules/network", "/work/modules/network"⟩,
          ⟨"net2", "./modules/network", "/work/modules/network"⟩]
        []
        ([("./modules/app",
            [{ ResourceType := "aws_vpc", ResourceName := "this", Source := "./modules/app",
               Attributes := [("enable_dns_support", ⟨.cty (.bool true), StrategyReplace⟩)] }])]
          ++ ("./modules/network",
            [{ ResourceType := "aws_vpc", ResourceName := "this",
               Source := "./modules/network",
               Attributes :=
                [("enable_dns_hostnames", ⟨.cty (.bool true), StrategyReplace⟩)] }]) :: [])
      ).1.map Prod.fst = ["app", "net"] := by
  obtain ⟨_, _, hrun, _⟩ :=
    ((C15_module_selected_by_declared_source Hcl.literals ModuleStore.single
      [⟨"app", "./modules/app", "/work/modules/app"⟩,
        ⟨"net", "./modules/network", "/work/modules/network"⟩,
        ⟨"net2", "./modules/network", "/work/modules/network"⟩]
      []
      [("./modules/app",
        [{ ResourceType := "aws_vpc", ResourceName := "this", Source := "./modules/app",
           Attributes := [("enable_dns_support", ⟨.cty (.bool true), StrategyReplace⟩)] }])]
      "./modules/network"
      [{ ResourceType := "aws_vpc", ResourceName := "this", Source := "./modules/network",
         Attributes := [("enable_dns_hostnames", ⟨.cty (.bool true), StrategyReplace⟩)] }]
      []).1 _ rfl).1 ⟨"net", "./modules/network", "/work/modules/network"⟩ (by decide)
  rw [hrun]
  rfl

/-- Counterexample to C15 as stated: the declared source
`registry.terraform.io/terraform-aws-modules/vpc/aws` and the source filter
`terraform-aws-modules/vpc/aws` are equal after normalization, yet the patch
set is applied to no module; with the declared source as filter it is
applied.  Of two module calls declared with the source of the filter only the
first is patched, and after the patch set of another source has failed the
patch set is applied to no module at all. -/
theorem C15_counterexample :
    normalizeModuleSource "registry.terraform.io/terraform-aws-modules/vpc/aws" =
      normalizeModuleSource "terraform-aws-modules/vpc/aws" ∧
    applyPatchesToModules Hcl.literals ModuleStore.single
        [⟨"vpc", "registry.terraform.io/terraform-aws-modules/vpc/aws",
          "/work/.terraform/modules/vpc"⟩]
        []
        [("terraform-aws-modules/vpc/aws",
          [{ ResourceType := "aws_vpc", ResourceName := "this",
             Source := "terraform-aws-modules/vpc/aws",
             Attributes := [("enable_dns_hostnames", ⟨.cty (.bool true), StrategyReplace⟩)] }])]
      = ([], none) ∧
    (applyPatchesToModules Hcl.literals ModuleStore.single
        [⟨"vpc", "registry.terraform.io/terraform-aws-modules/vpc/aws",
          "/work/.terraform/modules/vpc"⟩]
        []
        [("registry.terraform.io/terraform-aws-modules/vpc/aws",
          [{ ResourceType := "aws_vpc", ResourceName := "this",
             Source := "registry.terraform.io/terraform-aws-modules/vpc/aws",
             Attributes := [("enable_dns_hostnames", ⟨.cty (.bool true), StrategyReplace⟩)] }])]
      ).1.map Prod.fst = ["vpc"] ∧
    (applyPatchesToModules Hcl.literals ModuleStore.single
        [⟨"net", "./modules/network", "/work/modules/network"⟩,
          ⟨"net2", "./modules/network", "/work/modules/network"⟩]
        []
        [("./modules/network",
          [{ ResourceType := "aws_vpc", ResourceName := "this",
             Source := "./modules/network",
             Attributes := [("enable_dns_hostnames", ⟨.cty (.bool true), StrategyReplace⟩)] }])]
      ).1.map Prod.fst = ["net"] ∧
    applyPatchesToModules Hcl.literals ModuleStore.single
        [⟨"app", "./modules/app", "/work/modules/app"⟩,
          ⟨"net", "./modules/network", "/work/modules/network"⟩]
        []
        [("./modules/app",
          [{ ResourceType := "aws_vpc", ResourceName := "missing", Source := "./modules/app",
             Attributes := [] }]),
          ("./modules/network",
            [{ ResourceType := "aws_vpc", ResourceName := "this",
               Source := "./modules/network",
               Attributes :=
                [("enable_dns_hostnames", ⟨.cty (.bool true), StrategyReplace⟩)] }])]
      = ([], some (.error ("failed to apply patches: " ++
          "failed to apply patch for aws_vpc.missing: " ++
          "resource aws_vpc.missing not found in any file"))) :=
  ⟨by decide, rfl, rfl, rfl, rfl⟩

theorem applyPatch_error_of_absent (hcl : Hcl) (files : Files) (patch : Patch)
    (habsent : ∀ entry ∈ files, GoMap.get entry.2.Resources
      (ResourceKey patch.ResourceType patch.ResourceName) = none) :
    (applyPatch hcl files patch).1 = files ∧ (applyPatch hcl files patch).2.isSome = true := by
  have hfind := (findTargetResource_eq_none_iff files _).2 habsent
  simp [applyPatch, hfind]

theorem applyPatchLoop_error_of_absent (hcl : Hcl) (patches : List Patch) :
    ∀ (files : Files),
      (∃ patch ∈ patches, ∀ entry ∈ files, GoMap.get entry.2.Resources
        (ResourceKey patch.ResourceType patch.ResourceName) = none) →
      (applyPatchLoop hcl files patches).2.isSome = true := by
  induction patches with
  | nil => intro files h; simp at h
  | cons patch rest ih =>
    intro files habsent
    have hres := applyPatch_Resources hcl files patch
    rw [applyPatchLoop]
    cases happly : applyPatch hcl files patch with
    | mk files' err =>
      rw [happly] at hres
      simp only at hres
      cases err with
      | some failure => cases failure <;> rfl
      | none =>
        simp only
        obtain ⟨p, hp, hpabs⟩ := habsent
        rcases List.mem_cons.1 hp with h | h
        · subst h
          have := (applyPatch_error_of_absent hcl files p hpabs).2
          rw [happly] at this
          cases this
        · exact ih files' ⟨p, h, (absent_iff_of_Resources files files' _ hres).2 hpabs⟩

/-- C16 (as amended): when a module's patch set fails because a target resource
is in none of that module's files, `applyPatchesToModules` returns the error at
once: nothing is written for that module, and the patch sets that come later in
the iteration are not processed, whatever they are. -/
theorem C16_runner_stops_at_first_failure (hcl : Hcl) (store : ModuleStore)
    (modules : List ModuleCall) (written : Written) (source : String)
    (patches : List Patch) (rest : List (String × List Patch)) (module : ModuleCall)
    (files : Files)
    (hfind : findModuleBySource modules source = some module)
    (hparse : store.parseModuleFiles module = .ok files)
    (habsent : ∃ patch ∈ patches, ∀ entry ∈ files, GoMap.get entry.2.Resources
      (ResourceKey patch.ResourceType patch.ResourceName) = none) :
    ∃ err, applyPatchesToModules hcl store modules written ((source, patches) :: rest) =
      (written, some err) := by
  have herr := applyPatchLoop_error_of_absent hcl patches files habsent
  simp only [applyPatchesToModules, hfind, patchSingleModule, hparse, ApplyPatches]
  cases hloop : applyPatchLoop hcl files patches with
  | mk patchedFiles err =>
    rw [hloop] at herr
    cases err with
    | none => cases herr
    | some failure => cases failure <;> exact ⟨_, rfl⟩

/-- Witness of C16 (as amended): the patch set of `./modules/app` names a
resource its module lacks, so the runner stops before `./modules/network`. -/
theorem C16_runner_stops_at_first_failure_witness :
    ∃ err, applyPatchesToModules Hcl.literals ModuleStore.single
        [⟨"app", "./modules/app", "/work/modules/app"⟩,
          ⟨"net", "./modules/network", "/work/modules/network"⟩]
        []
        (("./modules/app",
            [{ ResourceType := "aws_vpc", ResourceName := "missing",
               Source := "./modules/app", Attributes := [] }]) ::
          [("./modules/network",
            [{ ResourceType := "aws_vpc", ResourceName := "this",
               Source := "./modules/network", Attributes := [] }])]) =
      ([], some err) :=
  C16_runner_stops_at_first_failure Hcl.literals ModuleStore.single
    [⟨"app", "./modules/app", "/work/modules/app"⟩,
      ⟨"net", "./modules/network", "/work/modules/network"⟩]
    [] "./modules/app"
    [{ ResourceType := "aws_vpc", ResourceName := "missing",
       Source := "./modules/app", Attributes := [] }]
    [("./modules/network",
      [{ ResourceType := "aws_vpc", ResourceName := "this",
         Source := "./modules/network", Attributes := [] }])]
    ⟨"app", "./modules/app", "/work/modules/app"⟩
    [("main.tf", ParseHCLFile "main.tf" []
      (.mk [] [.mk "resource" ["aws_vpc", "this"]
        (.mk [("cidr_block", .raw "\"10.0.0.0/16\"")] [])]))]
    (by decide) rfl
    ⟨{ ResourceType := "aws_vpc", ResourceName := "missing",
       Source := "./modules/app", Attributes := [] },
      List.mem_cons_self _ _, by decide⟩

/-- Counterexample to C16 as stated: after the patch set of `./modules/app`
fails on a missing resource, the runner returns an error and has written
nothing, although the patch set of `./modules/network`, run on its own, succeeds
and writes the module `net`. -/
theorem C16_counterexample :
    (applyPatchesToModules Hcl.literals ModuleStore.single
        [⟨"app", "./modules/app", "/work/modules/app"⟩,
          ⟨"net", "./modules/network", "/work/modules/network"⟩]
        []
        [("./modules/app",
            [{ ResourceType := "aws_vpc", ResourceName := "missing",
               Source := "./modules/app", Attributes := [] }]),
          ("./modules/network",
            [{ ResourceType := "aws_vpc", ResourceName := "this",
               Source := "./modules/network", Attributes := [] }])]).1.map Prod.fst = [] ∧
    (applyPatchesToModules Hcl.literals ModuleStore.single
        [⟨"app", "./modules/app", "/work/modules/app"⟩,
          ⟨"net", "./modules/network", "/work/modules/network"⟩]
        []
        [("./modules/app",
            [{ ResourceType := "aws_vpc", ResourceName := "missing",
               Source := "./modules/app", Attributes := [] }]),
          ("./modules/network",
            [{ ResourceType := "aws_vpc", ResourceName := "this",
               Source := "./modules/network", Attributes := [] }])]).2.isSome = true ∧
    (applyPatchesToModules Hcl.literals ModuleStore.single
        [⟨"app", "./modules/app", "/work/modules/app"⟩,
          ⟨"net", "./modules/network", "/work/modules/network"⟩]
        []
        [("./modules/network",
            [{ ResourceType := "aws_vpc", ResourceName := "this",
               Source := "./modules/network", Attributes := [] }])]).1.map Prod.fst =
      ["net"] ∧
    (applyPatchesToModules Hcl.literals ModuleStore.single
        [⟨"app", "./modules/app", "/work/modules/app"⟩,
          ⟨"net", "./modules/network", "/work/modules/network"⟩]
        []
        [("./modules/network",
            [{ ResourceType := "aws_vpc", ResourceName := "this",
               Source := "./modules/network", Attributes := [] }])]).2 = none :=
  ⟨rfl, rfl, rfl, rfl⟩

/-! ## The order of the attributes of a patch -/

theorem GoMap.get_perm {β : Type} {m m' : List (String × β)} (hperm : m.Perm m')
    (hnodup : GoMap.NodupKeys m) (key : String) : GoMap.get m key = GoMap.get m' key := by
  induction hperm with
  | nil => rfl
  | cons entry _ ih =>
    obtain ⟨k, v⟩ := entry
    simp only [GoMap.NodupKeys, GoMap.keys, List.map_cons, List.nodup_cons] at hnodup
    simp only [GoMap.get]
    rw [ih hnodup.2]
  | swap entry entry' tl =>
    obtain ⟨k, v⟩ := entry
    obtain ⟨k', v'⟩ := entry'
    simp only [GoMap.NodupKeys, GoMap.keys, List.map_cons, List.nodup_cons, List.mem_cons,
      not_or] at hnodup
    simp only [GoMap.get]
    by_cases h1 : k' = key
    · by_cases h2 : k = key
      · exact absurd (h1.trans h2.symm) hnodup.1.1
      · simp [h1, h2]
    · simp [h1]
  | trans h₁ _ ih₁ ih₂ =>
    have hnodup' := (List.Perm.nodup_iff (List.Perm.map Prod.fst h₁)).1 hnodup
    exact (ih₁ hnodup).trans (ih₂ hnodup')

theorem writeAttribute_get_self (body : Body) (name : String) (tokens : Tokens) :
    ((body.RemoveAttribute name).SetAttributeRaw name tokens).GetAttribute name =
      some tokens := by
  obtain ⟨attributes, blocks⟩ := body
  simp [Body.RemoveAttribute, Body.SetAttributeRaw, Body.GetAttribute, Body.attributes,
    GoMap.get_store_same]

/-- When the attributes of a patch have pairwise distinct names, the loop over
them succeeds exactly when each attribute, applied to what the body held under
its name at the start, succeeds; each name then holds what its own attribute
wrote. -/
theorem applyAttributes_ok (hcl : Hcl) (attrs : List (String × PatchAttribute)) :
    ∀ (body : Body), GoMap.NodupKeys attrs →
      ((applyAttributes hcl body attrs).2 = none ↔
        ∀ attr ∈ attrs, ∃ tokens,
          applyStrategy hcl (body.GetAttribute attr.1) attr.2 = .ok tokens) ∧
      ((applyAttributes hcl body attrs).2 = none →
        ∀ n, (applyAttributes hcl body attrs).1.GetAttribute n =
          match GoMap.get attrs n with
          | none => body.GetAttribute n
          | some patchAttr =>
            match applyStrategy hcl (body.GetAttribute n) patchAttr with
            | .ok tokens => some tokens
            | .error _ => body.GetAttribute n) := by
  induction attrs with
  | nil =>
    intro body _
    exact ⟨⟨fun _ attr hattr => absurd hattr (List.not_mem_nil attr), fun _ => rfl⟩,
      fun _ n => rfl⟩
  | cons hd tl ih =>
    obtain ⟨attrName, patchAttr⟩ := hd
    intro body hnodup
    simp only [GoMap.NodupKeys, GoMap.keys, List.map_cons, List.nodup_cons] at hnodup
    obtain ⟨hfresh, hnodupTl⟩ := hnodup
    rw [applyAttributes_cons]
    cases hstrategy : applyStrategy hcl (body.GetAttribute attrName) patchAttr with
    | error failure =>
      have hfail : ¬ ∀ attr ∈ (attrName, patchAttr) :: tl, ∃ tokens,
          applyStrategy hcl (body.GetAttribute attr.1) attr.2 = .ok tokens := by
        intro hall
        obtain ⟨tokens, htokens⟩ := hall (attrName, patchAttr) (List.mem_cons_self _ _)
        simp only at htokens
        rw [hstrategy] at htokens
        cases htokens
      cases failure with
      | error err =>
        simp only
        exact ⟨⟨fun h => (by cases h), fun h => absurd h hfail⟩, fun h => (by cases h)⟩
      | panic msg =>
        simp only
        exact ⟨⟨fun h => (by cases h), fun h => absurd h hfail⟩, fun h => (by cases h)⟩
    | ok tokens =>
      simp only
      obtain ⟨ihIff, ihGet⟩ :=
        ih ((body.RemoveAttribute attrName).SetAttributeRaw attrName tokens) hnodupTl
      have hother : ∀ n, attrName ≠ n →
          ((body.RemoveAttribute attrName).SetAttributeRaw attrName tokens).GetAttribute n =
            body.GetAttribute n :=
        fun n hn => (writeAttribute_frame body attrName tokens n hn).1
      have hne : ∀ attr ∈ tl, attrName ≠ attr.1 := by
        intro attr hattr heq
        apply hfresh
        rw [heq]
        exact List.mem_map_of_mem Prod.fst hattr
      constructor
      · rw [ihIff]
        constructor
        · intro hall attr hattr
          rcases List.mem_cons.1 hattr with h | h
          · subst h
            exact ⟨tokens, hstrategy⟩
          · obtain ⟨t, ht⟩ := hall attr h
            rw [hother attr.1 (hne attr h)] at ht
            exact ⟨t, ht⟩
        · intro hall attr hattr
          obtain ⟨t, ht⟩ := hall attr (List.mem_cons_of_mem _ hattr)
          rw [hother attr.1 (hne attr hattr)]
          exact ⟨t, ht⟩
      · intro hok n
        rw [ihGet hok n]
        by_cases hn : attrName = n
        · subst hn
          have hnone : GoMap.get tl attrName = none :=
            (GoMap.get_eq_none_iff tl attrName).2 hfresh
          simp [GoMap.get, hnone, hstrategy, writeAttribute_get_self]
        · simp only [GoMap.get, hn, if_false]
          rw [hother n hn]

/-- C17 (as amended): for a patch whose attributes have pairwise distinct names,
if applying the attributes in one iteration order succeeds, then applying them
in any other order succeeds as well and leaves every attribute name of the
resource body with the same final value. -/
theorem C17_attribute_order_irrelevant (hcl : Hcl) (body : Body)
    (attrs attrs' : List (String × PatchAttribute)) (hperm : attrs.Perm attrs')
    (hnodup : GoMap.NodupKeys attrs)
    (hok : (applyAttributes hcl body attrs).2 = none) :
    (applyAttributes hcl body attrs').2 = none ∧
    ∀ n, (applyAttributes hcl body attrs).1.GetAttribute n =
      (applyAttributes hcl body attrs').1.GetAttribute n := by
  have hnodup' : GoMap.NodupKeys attrs' :=
    (List.Perm.nodup_iff (List.Perm.map Prod.fst hperm)).1 hnodup
  obtain ⟨hiff, hget⟩ := applyAttributes_ok hcl attrs body hnodup
  obtain ⟨hiff', hget'⟩ := applyAttributes_ok hcl attrs' body hnodup'
  have hok' : (applyAttributes hcl body attrs').2 = none :=
    hiff'.2 (fun attr hattr => hiff.1 hok attr (hperm.mem_iff.2 hattr))
  refine ⟨hok', ?_⟩
  intro n
  rw [hget hok n, hget' hok' n, GoMap.get_perm hperm hnodup n]

/-- Witness of C17 (as amended): a replace of `instance_type` and a merge of
`tags`, applied in either order. -/
theorem C17_attribute_order_irrelevant_witness :
    (applyAttributes Hcl.literals
      (.mk [("instance_type", .raw "\"t3.micro\""),
        ("tags", .forValue (.object [("Name", .string "web")]))] [])
      [("tags", ⟨.cty (.object [("Owner", .string "team")]), StrategyMerge⟩),
        ("instance_type", ⟨.cty (.string "t3.large"), StrategyReplace⟩)]).2 = none ∧
    ∀ n,
      (applyAttributes Hcl.literals
        (.mk [("instance_type", .raw "\"t3.micro\""),
          ("tags", .forValue (.object [("Name", .string "web")]))] [])
        [("instance_type", ⟨.cty (.string "t3.large"), StrategyReplace⟩),
          ("tags", ⟨.cty (.object [("Owner", .string "team")]), StrategyMerge⟩)]
        ).1.GetAttribute n =
      (applyAttributes Hcl.literals
        (.mk [("instance_type", .raw "\"t3.micro\""),
          ("tags", .forValue (.object [("Name", .string "web")]))] [])
        [("tags", ⟨.cty (.object [("Owner", .string "team")]), StrategyMerge⟩),
          ("instance_type", ⟨.cty (.string "t3.large"), StrategyReplace⟩)]
        ).1.GetAttribute n :=
  C17_attribute_order_irrelevant Hcl.literals
    (.mk [("instance_type", .raw "\"t3.micro\""),
      ("tags", .forValue (.object [("Name", .string "web")]))] [])
    [("instance_type", ⟨.cty (.string "t3.large"), StrategyReplace⟩),
      ("tags", ⟨.cty (.object [("Owner", .string "team")]), StrategyMerge⟩)]
    [("tags", ⟨.cty (.object [("Owner", .string "team")]), StrategyMerge⟩),
      ("instance_type", ⟨.cty (.string "t3.large"), StrategyReplace⟩)]
    (List.Perm.swap _ _ _)
    (by simp [GoMap.NodupKeys, GoMap.keys])
    rfl

/-- Counterexample to C17 as stated: with an attribute whose strategy is none of
the three constants, the loop stops at that attribute, so the order decides
whether `ami` is written: it is when `ami` comes first, it is not when the
failing `tags` comes first. -/
theorem C17_counterexample :
    GoMap.NodupKeys
      [("ami", (⟨.cty (.string "ami-123"), StrategyReplace⟩ : PatchAttribute)),
        ("tags", ⟨.cty (.object []), 7⟩)] ∧
    (applyAttributes Hcl.literals (.mk [] [])
      [("ami", ⟨.cty (.string "ami-123"), StrategyReplace⟩),
        ("tags", ⟨.cty (.object []), 7⟩)]).1.GetAttribute "ami" =
      some (.forValue (.string "ami-123")) ∧
    (applyAttributes Hcl.literals (.mk [] [])
      [("tags", ⟨.cty (.object []), 7⟩),
        ("ami", ⟨.cty (.string "ami-123"), StrategyReplace⟩)]).1.GetAttribute "ami" =
      none :=
  ⟨by simp [GoMap.NodupKeys, GoMap.keys], rfl, rfl⟩

/-! ## Grouping patches by source -/

theorem groupPatchesLoop_nodup (patches : List Patch) :
    ∀ result : List (String × List Patch), GoMap.NodupKeys result →
      GoMap.NodupKeys (groupPatchesLoop result patches) := by
  induction patches with
  | nil => intro result h; exact h
  | cons patch rest ih =>
    intro result h
    rw [groupPatchesLoop]
    by_cases hsrc : patch.Source = ""
    · rw [if_pos hsrc]
      exact ih result h
    · rw [if_neg hsrc]
      exact ih _ (GoMap.NodupKeys_store _ _ _ h)

theorem get_groupPatchesLoop_empty (patches : List Patch) :
    ∀ result : List (String × List Patch),
      GoMap.get (groupPatchesLoop result patches) "" = GoMap.get result "" := by
  induction patches with
  | nil => intro result; rfl
  | cons patch rest ih =>
    intro result
    rw [groupPatchesLoop]
    by_cases hsrc : patch.Source = ""
    · rw [if_pos hsrc]
      exact ih result
    · rw [if_neg hsrc, ih, GoMap.get_store_other _ _ _ _ hsrc]

theorem get_groupPatchesLoop (patches : List Patch) (s : String) (hs : s ≠ "") :
    ∀ result : List (String × List Patch),
      GoMap.get (groupPatchesLoop result patches) s =
        match patches.filter (fun patch => decide (patch.Source = s)) with
        | [] => GoMap.get result s
        | first :: more => some ((GoMap.get result s).getD [] ++ first :: more) := by
  induction patches with
  | nil => intro result; rfl
  | cons patch rest ih =>
    intro result
    rw [groupPatchesLoop]
    by_cases hsrc : patch.Source = ""
    · rw [if_pos hsrc, ih result]
      have hne : ¬ patch.Source = s := fun h => hs (h.symm.trans hsrc)
      simp [List.filter_cons, hne]
    · rw [if_neg hsrc, ih]
      by_cases heq : patch.Source = s
      · subst heq
        simp only [List.filter_cons, decide_True, if_true, GoMap.get_store_same,
          Option.getD_some]
        cases List.filter (fun p => decide (p.Source = patch.Source)) rest <;> simp
      · simp only [List.filter_cons, heq, decide_False, GoMap.get_store_other _ _ _ _ heq]
        simp

/-- C18: `groupPatchesBySource` partitions the patches by source: the group
under a key `s` is exactly the list of the patches whose Source equals `s`, in
their original order, a key is present only for a non-empty source that some
patch carries, and a patch whose Source is the empty string is in no group. -/
theorem C18_groupPatchesBySource (patches : List Patch) :
    GoMap.NodupKeys (groupPatchesBySource patches) ∧
    (∀ s group, GoMap.get (groupPatchesBySource patches) s = some group ↔
      s ≠ "" ∧ group ≠ [] ∧
        group = patches.filter (fun patch => decide (patch.Source = s))) ∧
    (∀ s group, GoMap.get (groupPatchesBySource patches) s = some group →
      ∀ patch ∈ group, patch ∈ patches ∧ patch.Source = s ∧ patch.Source ≠ "") := by
  have hiff : ∀ s group, GoMap.get (groupPatchesBySource patches) s = some group ↔
      s ≠ "" ∧ group ≠ [] ∧
        group = patches.filter (fun patch => decide (patch.Source = s)) := by
    intro s group
    unfold groupPatchesBySource
    by_cases hs : s = ""
    · subst hs
      rw [get_groupPatchesLoop_empty]
      simp [GoMap.get]
    · rw [get_groupPatchesLoop patches s hs []]
      cases hfilter : List.filter (fun patch => decide (patch.Source = s)) patches with
      | nil =>
        simp only [GoMap.get]
        constructor
        · intro h
          cases h
        · rintro ⟨_, hne, heq⟩
          exact absurd heq hne
      | cons first more =>
        simp only [GoMap.get, Option.getD_none, List.nil_append, Option.some.injEq]
        constructor
        · intro h
          subst h
          exact ⟨hs, by simp, rfl⟩
        · rintro ⟨_, _, heq⟩
          exact heq.symm
  refine ⟨groupPatchesLoop_nodup patches [] (by simp [GoMap.NodupKeys, GoMap.keys]), hiff, ?_⟩
  intro s group hget patch hpatch
  obtain ⟨hs, _, hgroup⟩ := (hiff s group).1 hget
  rw [hgroup, List.mem_filter] at hpatch
  have hsrc : patch.Source = s := by simpa using hpatch.2
  exact ⟨hpatch.1, hsrc, by rw [hsrc]; exact hs⟩

/-- Witness of C18: two patches for `./modules/web` around one without a source
filter; the group keeps the two in order and leaves the third out. -/
theorem C18_groupPatchesBySource_witness :
    GoMap.get
        (groupPatchesBySource
          [{ ResourceType := "aws_instance", ResourceName := "web",
             Source := "./modules/web", Attributes := [] },
            { ResourceType := "aws_instance", ResourceName := "db", Attributes := [] },
            { ResourceType := "aws_instance", ResourceName := "api",
              Source := "./modules/web", Attributes := [] }])
        "./modules/web" =
      some
        [{ ResourceType := "aws_instance", ResourceName := "web",
           Source := "./modules/web", Attributes := [] },
          { ResourceType := "aws_instance", ResourceName := "api",
            Source := "./modules/web", Attributes := [] }] :=
  ((C18_groupPatchesBySource
    [{ ResourceType := "aws_instance", ResourceName := "web",
       Source := "./modules/web", Attributes := [] },
      { ResourceType := "aws_instance", ResourceName := "db", Attributes := [] },
      { ResourceType := "aws_instance", ResourceName := "api",
        Source := "./modules/web", Attributes := [] }]).2.1 "./modules/web" _).2
    ⟨by decide, by simp, rfl⟩

/-! ## Idempotence of `DeepMerge` -/

theorem GoMap.store_of_get_some {β : Type} (m : List (String × β)) (key : String) (val : β)
    (h : GoMap.get m key = some val) : GoMap.store m key val = m := by
  induction m with
  | nil => simp [GoMap.get] at h
  | cons hd tl ih =>
    obtain ⟨k, v⟩ := hd
    by_cases hk : k = key
    · simp only [GoMap.get, hk, if_true, Option.some.injEq] at h
      simp [GoMap.store, hk, h]
    · simp only [GoMap.get, hk, if_false] at h
      simp [GoMap.store, hk, ih h]

theorem GoMap.get_of_mem {β : Type} (m : List (String × β)) (hnodup : GoMap.NodupKeys m)
    (entry : String × β) (hmem : entry ∈ m) : GoMap.get m entry.1 = some entry.2 := by
  induction m with
  | nil => simp at hmem
  | cons hd tl ih =>
    obtain ⟨k, v⟩ := hd
    simp only [GoMap.NodupKeys, GoMap.keys, List.map_cons, List.nodup_cons] at hnodup
    rcases List.mem_cons.1 hmem with h | h
    · subst h
      simp [GoMap.get]
    · have hne : ¬ k = entry.1 := by
        intro heq
        apply hnodup.1
        rw [heq]
        exact List.mem_map_of_mem Prod.fst h
      simp only [GoMap.get, hne, if_false]
      exact ih hnodup.2 h

theorem mergeLoop_fixed (patchMap : List (String × Value)) (mergedMap : List (String × Value))
    (h : ∀ entry ∈ patchMap, ∃ cur, GoMap.get mergedMap entry.1 = some cur ∧
      mergedEntry (some cur) entry.2 = some cur) :
    mergeLoop mergedMap patchMap = some mergedMap := by
  induction patchMap with
  | nil => exact mergeLoop_nil mergedMap
  | cons hd tl ih =>
    obtain ⟨k, v⟩ := hd
    obtain ⟨cur, hget, hcur⟩ := h (k, v) (List.mem_cons_self _ _)
    simp only at hget hcur
    rw [mergeLoop_cons, hget, hcur]
    simp only
    rw [GoMap.store_of_get_some _ _ _ hget]
    exact ih (fun entry hentry => h entry (List.mem_cons_of_mem _ hentry))

/-- Away from nulls of object type, merging a patch a second time changes
nothing: a patch whose objects are known and repeat no key merges onto itself
to itself, and onto the result of a first merge that returned to that result. -/
theorem mergeCty_idempotent (patchCty : Value) (h : patchCty.WellKeyed) :
    mergeCty patchCty patchCty = some (.cty patchCty) ∧
    ∀ existingCty merged, mergeCty existingCty patchCty = some (.cty merged) →
      mergeCty merged patchCty = some (.cty merged) := by
  induction h with
  | other v hv =>
    have hnot : ∀ e, mergeCty e v = some (.cty v) :=
      fun e => mergeCty_of_not_objects e v (by simp [hv])
    refine ⟨hnot v, ?_⟩
    intro e merged hmerged
    rw [hnot e] at hmerged
    cases hmerged
    exact hnot v
  | object attrs hnodup hwk ih =>
    have hentry : ∀ entry ∈ attrs, ∀ (o : Option Value) (stored : Value),
        mergedEntry o entry.2 = some stored →
        mergedEntry (some stored) entry.2 = some stored := by
      intro entry hmem o stored hstored
      obtain ⟨hself, hagain⟩ := ih entry hmem
      cases hobj : entry.2.isObjectType with
      | false =>
        rw [mergedEntry_of_not_object _ _ hobj] at hstored
        cases hstored
        exact mergedEntry_of_not_object _ _ hobj
      | true =>
        have hselfEntry : mergedEntry (some entry.2) entry.2 = some entry.2 := by
          rw [mergedEntry_of_objects _ _ hobj hobj, hself]
        cases o with
        | none =>
          cases hstored
          exact hselfEntry
        | some ev =>
          cases hev : ev.isObjectType with
          | false =>
            rw [mergedEntry_of_existing_not_object _ _ hev] at hstored
            cases hstored
            exact hselfEntry
          | true =>
            rw [mergedEntry_of_objects _ _ hev hobj] at hstored
            cases hmerge : mergeCty ev entry.2 with
            | none => simp [hmerge] at hstored
            | some result =>
              obtain ⟨merged, hresult⟩ := mergeCty_isCty _ _ _ hmerge
              subst hresult
              simp only [hmerge, Option.some.injEq] at hstored
              subst hstored
              have hmergedObj : merged.isObjectType = true := by
                obtain ⟨sub, hsub⟩ :=
                  Value.WellKeyed.object_of_isObjectType _ (hwk entry hmem) hobj
                rw [hsub] at hmerge
                obtain ⟨_, mergedMap, _, _, hm⟩ := mergeCty_onto_object _ _ _ hev hmerge
                rw [hm]
                rfl
              rw [mergedEntry_of_objects _ _ hmergedObj hobj, hagain ev merged hmerge]
    have hself : mergeCty (.object attrs) (.object attrs) = some (.cty (.object attrs)) := by
      rw [mergeCty_object, mergeLoop_fixed attrs attrs]
      intro entry hmem
      exact ⟨entry.2, GoMap.get_of_mem attrs hnodup entry hmem,
        hentry entry hmem none entry.2 rfl⟩
    refine ⟨hself, ?_⟩
    intro e merged hmerged
    by_cases he : e.isObjectType = true
    · obtain ⟨existingMap, mergedMap, _, hloop, hm⟩ := mergeCty_onto_object _ _ _ he hmerged
      subst hm
      rw [mergeCty_object, mergeLoop_fixed attrs mergedMap]
      intro entry hmem
      have hget := get_mergeLoop attrs existingMap mergedMap entry.1 hnodup hloop
      rw [GoMap.get_of_mem attrs hnodup entry hmem] at hget
      simp only at hget
      obtain ⟨stored, hstored⟩ :=
        mergeLoop_entry_stored attrs existingMap mergedMap hnodup hloop entry hmem
      rw [hstored] at hget
      exact ⟨stored, hget, hentry entry hmem _ stored hstored⟩
    · rw [mergeCty_of_not_objects e _ (fun hboth => he hboth.1)] at hmerged
      cases hmerged
      exact hself

/-- Away from nulls of object type `DeepMerge` is idempotent in its patch
argument: when the objects of the patch are known and repeat no key, merging the
patch onto itself returns it, and merging it onto the result of a first merge
that returned gives that result again. -/
theorem deepMerge_idempotent_of_wellKeyed (patch : Dyn) (hpatch : patch.WellKeyed) :
    DeepMerge patch patch = some patch ∧
    ∀ existing merged, DeepMerge existing patch = some merged →
      DeepMerge merged patch = some merged := by
  cases patch with
  | cty p =>
    obtain ⟨hself, hagain⟩ := mergeCty_idempotent p hpatch
    have hpp : DeepMerge (.cty p) (.cty p) = some (.cty p) := hself
    refine ⟨hpp, ?_⟩
    intro existing merged hmerged
    cases existing with
    | cty e =>
      have h1 : mergeCty e p = some merged := hmerged
      obtain ⟨m, hm⟩ := mergeCty_isCty _ _ _ h1
      subst hm
      exact hagain e m h1
    | _ =>
      cases hmerged
      exact hpp
  | _ =>
    refine ⟨rfl, ?_⟩
    intro existing merged hmerged
    cases existing <;> cases hmerged <;> rfl

/-- C19 at its failing inputs: `DeepMerge` is not idempotent on the nulls of
object type that an overlay file or a module file can hold.  Merging the value
of `false ? {a = 1} : null` onto itself crashes in `AsValueMap`; merging the
value of `false ? {} : null` onto itself returns the known empty object and not
that null, so a second merge of it differs from the first merge onto a string;
on known objects both equations of the claim hold. -/
theorem C19_deepMerge_null_not_idempotent :
    DeepMerge (.cty (.nullOf (.object [("a", .number)])))
        (.cty (.nullOf (.object [("a", .number)]))) = none ∧
    DeepMerge (.cty (.object [("a", .number 1)]))
        (.cty (.nullOf (.object [("a", .number)]))) = none ∧
    DeepMerge (.cty (.nullOf (.object []))) (.cty (.nullOf (.object []))) =
      some (.cty (.object [])) ∧
    DeepMerge (.cty (.string "web")) (.cty (.nullOf (.object []))) =
      some (.cty (.nullOf (.object []))) ∧
    DeepMerge
        (.cty (.object [("tags", .object [("Name", .string "web")]), ("ami", .string "a")]))
        (.cty (.object [("tags", .object [("Owner", .string "team")]), ("count", .number 2)])) =
      some (.cty (.object [("tags", .object [("Name", .string "web"), ("Owner", .string "team")]),
        ("ami", .string "a"), ("count", .number 2)])) ∧
    DeepMerge
        (.cty (.object [("tags", .object [("Name", .string "web"), ("Owner", .string "team")]),
          ("ami", .string "a"), ("count", .number 2)]))
        (.cty (.object [("tags", .object [("Owner", .string "team")]), ("count", .number 2)])) =
      some (.cty (.object [("tags", .object [("Name", .string "web"), ("Owner", .string "team")]),
        ("ami", .string "a"), ("count", .number 2)])) :=
  ⟨rfl, rfl, rfl, rfl, rfl, rfl⟩

end Kungfu
